import Mathlib

/-!
# Warp-level bitonic sort by lane shuffles (rocPRIM `warp_sort_shuffle`)

A shallow embedding of `rocprim/warp/detail/warp_sort_shuffle.hpp`.

The registers of one logical warp are modelled as functions from the logical
lane id to the register content: a per-lane variable `Key& k` of the source is
a function `k : Nat → K`, and a lockstep statement of the source is a map on
such functions.  Only the lanes `id < WarpSize` of the function are populated.
Everything a lane holds is per lane, the comparator object included, so a
comparator argument is a function `Nat → K → K → Bool` (lane id first); a
caller handing the same comparator `less` to every lane passes `fun _ => less`.
-/

namespace warp_sort_shuffle

/-! ## Boundary primitives -/

/-- Modelled from the spec: the bit-extraction helper `get_bit(x, i)` of
`detail/various.hpp` (not part of the given source), bit `i` of `x` as `0` or `1`. -/
def get_bit (x i : Nat) : Nat := (x >>> i) &&& 1

/-- Modelled from the spec: the lane-identifier query `logical_lane_id<WarpSize>()`
(not part of the given source).  Lanes of the group are indexed by their id in
`[0, WarpSize)`, so the query returns the index itself. -/
def logical_lane_id (_WarpSize : Nat) (lane : Nat) : Nat := lane

/-- Modelled from the spec: the inter-lane exchange `warp_shuffle_xor(v, mask, width)`
(not part of the given source): every lane receives what the lane at
`own_id XOR mask` passed in. -/
def warp_shuffle_xor {α : Type} (v : Nat → α) (mask : Nat) (_width : Nat) : Nat → α :=
  fun id => v (id ^^^ mask)

/-- Modelled from the spec: the inter-lane gather `warp_shuffle(v, src_lane, width)`
(not part of the given source): every lane receives what the lane named by its
own `src_lane` passed in. -/
def warp_shuffle {α : Type} (v : Nat → α) (src_lane : Nat → Nat) (_width : Nat) : Nat → α :=
  fun id => v (src_lane id)

/-- Modelled from the spec: `storage_type`, the statically empty scratch-storage
handle `empty_storage_type` (declared outside the given source). -/
structure storage_type where
  deriving DecidableEq

/-! ## `swap`: one compare-exchange step -/

/-- The two key/value overloads of `swap<warp>` (source lines 45-70): a no-op when
`!(WarpSize > warp)`, else each lane fetches the partner's key and value and
adopts both when `compare_function(dir ? k : k1, dir ? k1 : k)`. -/
def swap {K V : Type} (WarpSize warp : Nat) (k : Nat → K) (v : Nat → V) (mask : Nat)
    (dir : Nat → Bool) (compare_function : Nat → K → K → Bool) : (Nat → K) × (Nat → V) :=
  if WarpSize > warp then
    let k1 := warp_shuffle_xor k mask WarpSize
    let v1 := warp_shuffle_xor v mask WarpSize
    let swap := fun id =>
      compare_function id (if dir id then k id else k1 id) (if dir id then k1 id else k id)
    (fun id => if swap id then k1 id else k id, fun id => if swap id then v1 id else v id)
  else
    (k, v)

/-- The two key-only overloads of `swap<warp>` (source lines 72-94). -/
def swap_key {K : Type} (WarpSize warp : Nat) (k : Nat → K) (mask : Nat)
    (dir : Nat → Bool) (compare_function : Nat → K → K → Bool) : Nat → K :=
  if WarpSize > warp then
    let k1 := warp_shuffle_xor k mask WarpSize
    let swap := fun id =>
      compare_function id (if dir id then k id else k1 id) (if dir id then k1 id else k id)
    fun id => if swap id then k1 id else k id
  else
    k

/-! ## `bitonic_sort`: the unrolled schedule -/

/-- One call `swap<warp>(kv..., mask, dir, compare_function)` of `bitonic_sort`:
the template argument, the mask, and the direction flag as a function of the
lane's `id`. -/
structure Step where
  warp : Nat
  mask : Nat
  dir : Nat → Bool

/-- The 21 `swap` calls of `bitonic_sort` (source lines 106-131), in source order. -/
def schedule : List Step :=
  [ ⟨2, 1, fun id => get_bit id 1 != get_bit id 0⟩,

    ⟨4, 2, fun id => get_bit id 2 != get_bit id 1⟩,
    ⟨4, 1, fun id => get_bit id 2 != get_bit id 0⟩,

    ⟨8, 4, fun id => get_bit id 3 != get_bit id 2⟩,
    ⟨8, 2, fun id => get_bit id 3 != get_bit id 1⟩,
    ⟨8, 1, fun id => get_bit id 3 != get_bit id 0⟩,

    ⟨16, 8, fun id => get_bit id 4 != get_bit id 3⟩,
    ⟨16, 4, fun id => get_bit id 4 != get_bit id 2⟩,
    ⟨16, 2, fun id => get_bit id 4 != get_bit id 1⟩,
    ⟨16, 1, fun id => get_bit id 4 != get_bit id 0⟩,

    ⟨32, 16, fun id => get_bit id 5 != get_bit id 4⟩,
    ⟨32, 8, fun id => get_bit id 5 != get_bit id 3⟩,
    ⟨32, 4, fun id => get_bit id 5 != get_bit id 2⟩,
    ⟨32, 2, fun id => get_bit id 5 != get_bit id 1⟩,
    ⟨32, 1, fun id => get_bit id 5 != get_bit id 0⟩,

    ⟨32, 32, fun id => get_bit id 5 != 0⟩,
    ⟨16, 16, fun id => get_bit id 4 != 0⟩,
    ⟨8, 8, fun id => get_bit id 3 != 0⟩,
    ⟨4, 4, fun id => get_bit id 2 != 0⟩,
    ⟨2, 2, fun id => get_bit id 1 != 0⟩,
    ⟨0, 1, fun id => get_bit id 0 != 0⟩ ]

/-- The body of `bitonic_sort(compare_function, key, value)` (source lines 96-132)
for a two-element pack: the schedule run on key and value, `id` being
`logical_lane_id<WarpSize>()`. -/
def bitonic_sort {K V : Type} (WarpSize : Nat) (compare_function : Nat → K → K → Bool)
    (kv : (Nat → K) × (Nat → V)) : (Nat → K) × (Nat → V) :=
  schedule.foldl
    (fun kv s =>
      swap WarpSize s.warp kv.1 kv.2 s.mask
        (fun lane => s.dir (logical_lane_id WarpSize lane)) compare_function)
    kv

/-- The body of `bitonic_sort(compare_function, key)` (source lines 96-132) for a
one-element pack. -/
def bitonic_sort_key {K : Type} (WarpSize : Nat) (compare_function : Nat → K → K → Bool)
    (k : Nat → K) : Nat → K :=
  schedule.foldl
    (fun k s =>
      swap_key WarpSize s.warp k s.mask
        (fun lane => s.dir (logical_lane_id WarpSize lane)) compare_function)
    k

/-! ## `sort`: the public entry points -/

/-- The key-only entry `sort(Key& thread_value, BinaryFunction)` (source lines 139-145). -/
def sort_key {K : Type} (WarpSize : Nat) (thread_value : Nat → K)
    (compare_function : Nat → K → K → Bool) : Nat → K :=
  bitonic_sort_key WarpSize compare_function thread_value

/-- The key-only entry with the storage handle,
`sort(Key& thread_value, storage_type& storage, BinaryFunction)` (source lines 147-154):
`(void) storage; sort(thread_value, compare_function);`. -/
def sort_key_storage {K : Type} (WarpSize : Nat) (thread_value : Nat → K)
    (_storage : Nat → storage_type) (compare_function : Nat → K → K → Bool) : Nat → K :=
  sort_key WarpSize thread_value compare_function

/-- The key/value entry for `sizeof(V) <= sizeof(int)` (source lines 156-163):
the network runs on key and value directly. -/
def sort_small {K V : Type} (WarpSize : Nat) (thread_key : Nat → K) (thread_value : Nat → V)
    (compare_function : Nat → K → K → Bool) : (Nat → K) × (Nat → V) :=
  bitonic_sort WarpSize compare_function (thread_key, thread_value)

/-- The key/value entry for `sizeof(V) > sizeof(int)` (source lines 165-175):
the network runs on key and lane id, then the value is gathered from the lane
the resulting index names. -/
def sort_large {K V : Type} (WarpSize : Nat) (thread_key : Nat → K) (thread_value : Nat → V)
    (compare_function : Nat → K → K → Bool) : (Nat → K) × (Nat → V) :=
  let v : Nat → Nat := logical_lane_id WarpSize
  let kv := bitonic_sort WarpSize compare_function (thread_key, v)
  (kv.1, warp_shuffle thread_value kv.2 WarpSize)

/-- The key/value entry `sort(Key&, Value&, BinaryFunction)`: the overload pair
of source lines 156-175, one of which is selected at compile time by
`sizeof(V) <= sizeof(int)`, here the flag `value_fits_int`. -/
def sort_key_value {K V : Type} (value_fits_int : Bool) (WarpSize : Nat)
    (thread_key : Nat → K) (thread_value : Nat → V)
    (compare_function : Nat → K → K → Bool) : (Nat → K) × (Nat → V) :=
  if value_fits_int then sort_small WarpSize thread_key thread_value compare_function
  else sort_large WarpSize thread_key thread_value compare_function

/-- The key/value entry with the storage handle,
`sort(Key& thread_key, Value& thread_value, storage_type& storage, BinaryFunction)`
(source lines 177-184): `(void) storage; sort(compare_function, thread_key, thread_value);`.
The inner call hands its three arguments in that order to
`sort(Key&, Value&, BinaryFunction)`, so it only compiles when `Key`, `Value` and
the comparator are one type `F`; `call c a b` is `c(a, b)`, the call operator
of `F`.  The inner `Key&` is bound to the local by-value `compare_function`
(its sorted result is dropped on return), the inner `Value&` to the caller's
`thread_key`, and the inner comparator is a copy of the caller's
`thread_value`, which is never written.  The result is the caller's
`(thread_key, thread_value)` after the call. -/
def sort_storage {F : Type} (call : F → F → F → Bool) (value_fits_int : Bool)
    (WarpSize : Nat) (thread_key thread_value : Nat → F) (_storage : Nat → storage_type)
    (compare_function : Nat → F) : (Nat → F) × (Nat → F) :=
  let inner := sort_key_value value_fits_int WarpSize compare_function thread_key
    (fun lane => call (thread_value lane))
  (inner.2, thread_value)

/-! ## The steps compiled in for a width -/

/-- The steps of the schedule that are compiled in for `WarpSize`, those with
`WarpSize > warp`. -/
def executed_steps (WarpSize : Nat) : List Step :=
  schedule.filter (fun s => decide (WarpSize > s.warp))

/-- The number of steps of the schedule with `WarpSize > warp`. -/
def rounds (WarpSize : Nat) : Nat := (executed_steps WarpSize).length

/-! ## Concrete inputs -/

/-- The numeric `less` on natural-number keys. -/
def numeric_less (a b : Nat) : Bool := decide (a < b)

/-- Keys compared by their half: `2` and `3` are equivalent, not equal. -/
def half_less (a b : Nat) : Bool := decide (a / 2 < b / 2)

/-- Per-lane registers from a list: lane `id` holds entry `id`. -/
def lanes {α : Type} (l : List α) (d : α) : Nat → α := fun id => l.getD id d

/-! ## Definitions used by the proofs -/

/-- A key-only compare-exchange step that is compiled in. -/
def cex_key {K : Type} (mask : Nat) (dir : Nat → Bool)
    (compare_function : Nat → K → K → Bool) (k : Nat → K) : Nat → K :=
  swap_key 1 0 k mask dir compare_function

/-- A cascade of compiled-in key-only steps with masks `2 ^ (s - 1), ..., 2, 1`;
`dir j` is the direction flag of the step with mask `2 ^ j`. -/
def cascade_key {K : Type} (s : Nat) (dir : Nat → Nat → Bool)
    (compare_function : Nat → K → K → Bool) (k : Nat → K) : Nat → K :=
  match s with
  | 0 => k
  | j + 1 => cascade_key j dir compare_function (cex_key (2 ^ j) (dir j) compare_function k)

/-- The build cascades for run lengths `2, 4, ..., 2 ^ t`: the cascade for run
length `2 ^ t` has the flag `get_bit(id, t) != get_bit(id, j)` at mask `2 ^ j`. -/
def build_key {K : Type} (t : Nat) (compare_function : Nat → K → K → Bool) (k : Nat → K) :
    Nat → K :=
  match t with
  | 0 => k
  | t + 1 =>
    cascade_key (t + 1) (fun j id => get_bit id (t + 1) != get_bit id j) compare_function
      (build_key t compare_function k)

/-- The network of a group of `2 ^ n` lanes in closed form: the build cascades
for run lengths up to `2 ^ (n - 1)`, then the final cascade with the flag
`get_bit(id, j) != 0` at mask `2 ^ j`. -/
def network_key {K : Type} (n : Nat) (compare_function : Nat → K → K → Bool) (k : Nat → K) :
    Nat → K :=
  cascade_key n (fun j id => get_bit id j != 0) compare_function
    (build_key (n - 1) compare_function k)

/-- The strict order `false < true` on `Bool`, as a comparator. -/
def blt (a b : Bool) : Bool := !a && b

/-- On the aligned block of `len` lanes starting at `base`, `x` is `c` outside
and `!c` inside some window `[a, b)`: the zero-one bitonic shapes. -/
def BitonicOn (x : Nat → Bool) (base len : Nat) : Prop :=
  ∃ a b : Nat, ∃ c : Bool, a ≤ b ∧ b ≤ len ∧
    ∀ r, r < len → x (base + r) = (c != decide (a ≤ r ∧ r < b))

/-- On the block of `len` lanes starting at `base`, `x` is a step at some
threshold `a`: rising when `d = false`, falling when `d = true`. -/
def SortedOn (d : Bool) (x : Nat → Bool) (base len : Nat) : Prop :=
  ∃ a : Nat, a ≤ len ∧ ∀ r, r < len → x (base + r) = (d != decide (a ≤ r))

/-- Every aligned block of `2 ^ t` lanes is sorted, rising when the block index
is even and falling when it is odd. -/
def AltSorted (t : Nat) (x : Nat → Bool) : Prop :=
  ∀ q, SortedOn (Nat.testBit q 0) x (2 ^ t * q) (2 ^ t)

/-- The comparator requirement of the source: a strict weak ordering. -/
structure StrictWeakOrder {K : Type} (less : K → K → Bool) : Prop where
  irrefl : ∀ a, less a a = false
  trans : ∀ a b c, less a b = true → less b c = true → less a c = true
  incomp_trans : ∀ a b c, less a b = false → less b a = false →
    less b c = false → less c b = false → less a c = false ∧ less c a = false

/-- A strict total order: a strict weak ordering in which distinct keys are
always comparable. -/
structure StrictTotalOrder {K : Type} (less : K → K → Bool) : Prop where
  irrefl : ∀ a, less a a = false
  trans : ∀ a b c, less a b = true → less b c = true → less a c = true
  total : ∀ a b, a ≠ b → less a b = true ∨ less b a = true

/-! ## Parts of the schedule -/

/-- A run of `swap` calls of `bitonic_sort` on the key alone: the body of
`bitonic_sort_key` for a part `steps` of the schedule. -/
def run_steps_key {K : Type} (WarpSize : Nat) (compare_function : Nat → K → K → Bool)
    (steps : List Step) (k : Nat → K) : Nat → K :=
  steps.foldl
    (fun k s =>
      swap_key WarpSize s.warp k s.mask
        (fun lane => s.dir (logical_lane_id WarpSize lane)) compare_function)
    k

/-- The `swap` calls of the build cascades for run lengths `2, 4, ..., 2 ^ t`:
the first `1 + 2 + ... + t` calls of the schedule (source lines 106-124 for
`t = 5`). -/
def build_steps (t : Nat) : List Step := schedule.take (t * (t + 1) / 2)

/-- The `swap` calls of the final cascade (source lines 126-131): the last six
calls of the schedule. -/
def final_steps : List Step := schedule.drop 15

/-! ## Rounds and compare-exchanges, measured on `swap` -/

/-- A run of `swap` calls of `bitonic_sort` on key and value: the body of
`bitonic_sort` for a part `steps` of the schedule. -/
def run_steps {K V : Type} (WarpSize : Nat) (compare_function : Nat → K → K → Bool)
    (steps : List Step) (kv : (Nat → K) × (Nat → V)) : (Nat → K) × (Nat → V) :=
  steps.foldl
    (fun kv s =>
      swap WarpSize s.warp kv.1 kv.2 s.mask
        (fun lane => s.dir (logical_lane_id WarpSize lane)) compare_function)
    kv

/-- The registers the call `swap<warp>(k, mask, dir, compare_function)` of step `s`
leaves when every lane holds its own lane id and every comparison answers
`true`: a lane that took part in an exchange holds its partner's id, every
other lane its own. -/
def probe_step (WarpSize : Nat) (s : Step) : Nat → Nat :=
  swap_key WarpSize s.warp (fun lane => lane) s.mask
    (fun lane => s.dir (logical_lane_id WarpSize lane)) (fun _ _ _ => true)

/-- Whether the `swap` call of step `s` performs a synchronized round for
`WarpSize`: on the probe, some lane of the group receives another lane's
register. -/
def performs_round (WarpSize : Nat) (s : Step) : Bool :=
  (List.range WarpSize).any (fun id => probe_step WarpSize s id != id)

/-- The steps of the schedule whose `swap` call performs a round, in schedule order. -/
def performed_steps (WarpSize : Nat) : List Step :=
  schedule.filter (performs_round WarpSize)

/-- The number of synchronized rounds one sort performs. -/
def performed_rounds (WarpSize : Nat) : Nat := (performed_steps WarpSize).length

theorem get_bit_eq (x i : Nat) : get_bit x i = (x.testBit i).toNat := by
  unfold get_bit Nat.testBit
  rw [Nat.and_comm]
  have h : 1 &&& (x >>> i) = (x >>> i) % 2 := by
    rw [Nat.and_comm]; exact Nat.and_one_is_mod _
  rw [h]
  rcases Nat.mod_two_eq_zero_or_one (x >>> i) with h0 | h0 <;> simp [h0]

theorem get_bit_ne_get_bit (x a b : Nat) :
    (get_bit x a != get_bit x b) = (x.testBit a != x.testBit b) := by
  rw [get_bit_eq, get_bit_eq]
  cases x.testBit a <;> cases x.testBit b <;> rfl

theorem get_bit_ne_zero (x a : Nat) : (get_bit x a != 0) = x.testBit a := by
  rw [get_bit_eq]
  cases x.testBit a <;> rfl

theorem swap_key_active {K : Type} {WarpSize warp : Nat} (h : WarpSize > warp) (k : Nat → K)
    (mask : Nat) (dir : Nat → Bool) (cmp : Nat → K → K → Bool) :
    swap_key WarpSize warp k mask dir cmp = cex_key mask dir cmp k := by
  simp [swap_key, cex_key, h, warp_shuffle_xor]

theorem swap_key_noop {K : Type} {WarpSize warp : Nat} (h : ¬ WarpSize > warp) (k : Nat → K)
    (mask : Nat) (dir : Nat → Bool) (cmp : Nat → K → K → Bool) :
    swap_key WarpSize warp k mask dir cmp = k := by
  simp [swap_key, h]

theorem bitonic_sort_key_eq_network {K : Type} (n : Nat) (h1 : 1 ≤ n) (h6 : n ≤ 6)
    (cmp : Nat → K → K → Bool) (k : Nat → K) :
    bitonic_sort_key (2 ^ n) cmp k = network_key n cmp k := by
  have hn : n = 1 ∨ n = 2 ∨ n = 3 ∨ n = 4 ∨ n = 5 ∨ n = 6 := by omega
  rcases hn with rfl | rfl | rfl | rfl | rfl | rfl <;>
    simp only [bitonic_sort_key, schedule, List.foldl_cons, List.foldl_nil, logical_lane_id,
      network_key, build_key, cascade_key] <;>
    simp (disch := decide) only [swap_key_active, swap_key_noop] <;> rfl

/-! ## Lane-id arithmetic -/

theorem testBit_block_low (j q r : Nat) (hr : r < 2 ^ j) :
    Nat.testBit (2 ^ (j + 1) * q + r) j = false := by
  have h : r < 2 ^ (j + 1) := by rw [pow_succ]; omega
  rw [Nat.testBit_mul_pow_two_add q h j]
  simp [Nat.testBit_lt_two_pow hr]

theorem testBit_block_high (j q r : Nat) (hr : r < 2 ^ j) :
    Nat.testBit (2 ^ (j + 1) * q + 2 ^ j + r) j = true := by
  have e : 2 ^ (j + 1) * q + 2 ^ j + r = 2 ^ j * (2 * q + 1) + r := by ring
  rw [e, Nat.testBit_mul_pow_two_add (2 * q + 1) hr j]
  simp
  omega

theorem xor_block_low (j q r : Nat) (hr : r < 2 ^ j) :
    (2 ^ (j + 1) * q + r) ^^^ 2 ^ j = 2 ^ (j + 1) * q + 2 ^ j + r := by
  apply Nat.eq_of_testBit_eq
  intro i
  have e1 : 2 ^ (j + 1) * q + r = 2 ^ j * (2 * q) + r := by ring
  have e2 : 2 ^ (j + 1) * q + 2 ^ j + r = 2 ^ j * (2 * q + 1) + r := by ring
  rw [Nat.testBit_xor, Nat.testBit_two_pow, e1, e2,
    Nat.testBit_mul_pow_two_add (2 * q) hr i, Nat.testBit_mul_pow_two_add (2 * q + 1) hr i]
  by_cases h : i < j
  · have : ¬ j = i := by omega
    simp [h, this]
  · simp only [h, if_false]
    by_cases h' : j = i
    · subst h'
      simp
      omega
    · obtain ⟨l, hl⟩ : ∃ l, i - j = l + 1 := ⟨i - j - 1, by omega⟩
      rw [hl, Nat.testBit_succ, Nat.testBit_succ]
      have : (2 * q + 1) / 2 = 2 * q / 2 := by omega
      simp [h', this]

theorem xor_block_high (j q r : Nat) (hr : r < 2 ^ j) :
    (2 ^ (j + 1) * q + 2 ^ j + r) ^^^ 2 ^ j = 2 ^ (j + 1) * q + r := by
  rw [← xor_block_low j q r hr, Nat.xor_assoc, Nat.xor_self, Nat.xor_zero]

theorem testBit_block_top (s q r : Nat) (hr : r < 2 ^ s) :
    Nat.testBit (2 ^ s * q + r) s = Nat.testBit q 0 := by
  rw [Nat.testBit_mul_pow_two_add q hr s]
  simp

/-! ## The network on zero-one inputs -/

theorem cex_key_blt (mask : Nat) (dir : Nat → Bool) (x : Nat → Bool) (i : Nat) :
    cex_key mask dir (fun _ => blt) x i =
      if dir i then (x i || x (i ^^^ mask)) else (x i && x (i ^^^ mask)) := by
  cases hd : dir i <;> cases hx : x i <;> cases hp : x (i ^^^ mask) <;>
    simp [cex_key, swap_key, warp_shuffle_xor, blt, hd, hx, hp]

theorem halfclean_window (m a b : Nat) (c d : Bool) (hab : a ≤ b) (hb : b ≤ 2 * m)
    (u lo hi : Nat → Bool)
    (hu : ∀ r, r < 2 * m → u r = (c != decide (a ≤ r ∧ r < b)))
    (hlo : ∀ r, r < m → lo r = if d then (u r || u (m + r)) else (u r && u (m + r)))
    (hhi : ∀ r, r < m → hi r = if d then (u r && u (m + r)) else (u r || u (m + r))) :
    (∃ a' b' : Nat, ∃ c' : Bool, a' ≤ b' ∧ b' ≤ m ∧
        ∀ r, r < m → lo r = (c' != decide (a' ≤ r ∧ r < b'))) ∧
    (∃ a' b' : Nat, ∃ c' : Bool, a' ≤ b' ∧ b' ≤ m ∧
        ∀ r, r < m → hi r = (c' != decide (a' ≤ r ∧ r < b'))) ∧
    (∀ r r', r < m → r' < m → (d != lo r) = true → (d != hi r') = true) := by
  have key : ∀ r, r < m → u r = (c != decide (a ≤ r ∧ r < b)) ∧
      u (m + r) = (c != decide (a ≤ m + r ∧ m + r < b)) := fun r hr =>
    ⟨hu r (by omega), hu (m + r) (by omega)⟩
  by_cases h1 : a + m ≤ b
  · -- the window covers at least half of the block
    cases d <;> cases c
    · refine ⟨⟨a, b - m, false, by omega, by omega, fun r hr => ?_⟩,
        ⟨0, m, false, by omega, by omega, fun r hr => ?_⟩, fun r r' hr hr' => ?_⟩
      · rw [hlo r hr, (key r hr).1, (key r hr).2, Bool.eq_iff_iff]; simp; omega
      · rw [hhi r hr, (key r hr).1, (key r hr).2, Bool.eq_iff_iff]; simp; omega
      · rw [hlo r hr, hhi r' hr', (key r hr).1, (key r hr).2, (key r' hr').1, (key r' hr').2]
        simp; omega
    · refine ⟨⟨0, 0, false, by omega, by omega, fun r hr => ?_⟩,
        ⟨a, b - m, true, by omega, by omega, fun r hr => ?_⟩, fun r r' hr hr' => ?_⟩
      · rw [hlo r hr, (key r hr).1, (key r hr).2, Bool.eq_iff_iff]; simp; omega
      · rw [hhi r hr, (key r hr).1, (key r hr).2, Bool.eq_iff_iff]; simp; omega
      · rw [hlo r hr, hhi r' hr', (key r hr).1, (key r hr).2, (key r' hr').1, (key r' hr').2]
        simp; omega
    · refine ⟨⟨0, m, false, by omega, by omega, fun r hr => ?_⟩,
        ⟨a, b - m, false, by omega, by omega, fun r hr => ?_⟩, fun r r' hr hr' => ?_⟩
      · rw [hlo r hr, (key r hr).1, (key r hr).2, Bool.eq_iff_iff]; simp; omega
      · rw [hhi r hr, (key r hr).1, (key r hr).2, Bool.eq_iff_iff]; simp; omega
      · rw [hlo r hr, hhi r' hr', (key r hr).1, (key r hr).2, (key r' hr').1, (key r' hr').2]
        simp; omega
    · refine ⟨⟨a, b - m, true, by omega, by omega, fun r hr => ?_⟩,
        ⟨0, 0, false, by omega, by omega, fun r hr => ?_⟩, fun r r' hr hr' => ?_⟩
      · rw [hlo r hr, (key r hr).1, (key r hr).2, Bool.eq_iff_iff]; simp; omega
      · rw [hhi r hr, (key r hr).1, (key r hr).2, Bool.eq_iff_iff]; simp; omega
      · rw [hlo r hr, hhi r' hr', (key r hr).1, (key r hr).2, (key r' hr').1, (key r' hr').2]
        simp; omega
  · by_cases h2 : b ≤ m
    · -- a short window inside the lower half
      cases d <;> cases c
      · refine ⟨⟨0, 0, false, by omega, by omega, fun r hr => ?_⟩,
          ⟨a, b, false, by omega, by omega, fun r hr => ?_⟩, fun r r' hr hr' => ?_⟩
        · rw [hlo r hr, (key r hr).1, (key r hr).2, Bool.eq_iff_iff]; simp; omega
        · rw [hhi r hr, (key r hr).1, (key r hr).2, Bool.eq_iff_iff]; simp; omega
        · rw [hlo r hr, hhi r' hr', (key r hr).1, (key r hr).2, (key r' hr').1, (key r' hr').2]
          simp; omega
      · refine ⟨⟨a, b, true, by omega, by omega, fun r hr => ?_⟩,
          ⟨0, m, false, by omega, by omega, fun r hr => ?_⟩, fun r r' hr hr' => ?_⟩
        · rw [hlo r hr, (key r hr).1, (key r hr).2, Bool.eq_iff_iff]; simp; omega
        · rw [hhi r hr, (key r hr).1, (key r hr).2, Bool.eq_iff_iff]; simp; omega
        · rw [hlo r hr, hhi r' hr', (key r hr).1, (key r hr).2, (key r' hr').1, (key r' hr').2]
          simp; omega
      · refine ⟨⟨a, b, false, by omega, by omega, fun r hr => ?_⟩,
          ⟨0, 0, false, by omega, by omega, fun r hr => ?_⟩, fun r r' hr hr' => ?_⟩
        · rw [hlo r hr, (key r hr).1, (key r hr).2, Bool.eq_iff_iff]; simp; omega
        · rw [hhi r hr, (key r hr).1, (key r hr).2, Bool.eq_iff_iff]; simp; omega
        · rw [hlo r hr, hhi r' hr', (key r hr).1, (key r hr).2, (key r' hr').1, (key r' hr').2]
          simp; omega
      · refine ⟨⟨0, m, false, by omega, by omega, fun r hr => ?_⟩,
          ⟨a, b, true, by omega, by omega, fun r hr => ?_⟩, fun r r' hr hr' => ?_⟩
        · rw [hlo r hr, (key r hr).1, (key r hr).2, Bool.eq_iff_iff]; simp; omega
        · rw [hhi r hr, (key r hr).1, (key r hr).2, Bool.eq_iff_iff]; simp; omega
        · rw [hlo r hr, hhi r' hr', (key r hr).1, (key r hr).2, (key r' hr').1, (key r' hr').2]
          simp; omega
    · by_cases h3 : m ≤ a
      · -- a short window inside the upper half
        cases d <;> cases c
        · refine ⟨⟨0, 0, false, by omega, by omega, fun r hr => ?_⟩,
            ⟨a - m, b - m, false, by omega, by omega, fun r hr => ?_⟩, fun r r' hr hr' => ?_⟩
          · rw [hlo r hr, (key r hr).1, (key r hr).2, Bool.eq_iff_iff]; simp; omega
          · rw [hhi r hr, (key r hr).1, (key r hr).2, Bool.eq_iff_iff]; simp; omega
          · rw [hlo r hr, hhi r' hr', (key r hr).1, (key r hr).2, (key r' hr').1, (key r' hr').2]
            simp; omega
        · refine ⟨⟨a - m, b - m, true, by omega, by omega, fun r hr => ?_⟩,
            ⟨0, m, false, by omega, by omega, fun r hr => ?_⟩, fun r r' hr hr' => ?_⟩
          · rw [hlo r hr, (key r hr).1, (key r hr).2, Bool.eq_iff_iff]; simp; omega
          · rw [hhi r hr, (key r hr).1, (key r hr).2, Bool.eq_iff_iff]; simp; omega
          · rw [hlo r hr, hhi r' hr', (key r hr).1, (key r hr).2, (key r' hr').1, (key r' hr').2]
            simp; omega
        · refine ⟨⟨a - m, b - m, false, by omega, by omega, fun r hr => ?_⟩,
            ⟨0, 0, false, by omega, by omega, fun r hr => ?_⟩, fun r r' hr hr' => ?_⟩
          · rw [hlo r hr, (key r hr).1, (key r hr).2, Bool.eq_iff_iff]; simp; omega
          · rw [hhi r hr, (key r hr).1, (key r hr).2, Bool.eq_iff_iff]; simp; omega
          · rw [hlo r hr, hhi r' hr', (key r hr).1, (key r hr).2, (key r' hr').1, (key r' hr').2]
            simp; omega
        · refine ⟨⟨0, m, false, by omega, by omega, fun r hr => ?_⟩,
            ⟨a - m, b - m, true, by omega, by omega, fun r hr => ?_⟩, fun r r' hr hr' => ?_⟩
          · rw [hlo r hr, (key r hr).1, (key r hr).2, Bool.eq_iff_iff]; simp; omega
          · rw [hhi r hr, (key r hr).1, (key r hr).2, Bool.eq_iff_iff]; simp; omega
          · rw [hlo r hr, hhi r' hr', (key r hr).1, (key r hr).2, (key r' hr').1, (key r' hr').2]
            simp; omega
      · -- a short window across the middle
        cases d <;> cases c
        · refine ⟨⟨0, 0, false, by omega, by omega, fun r hr => ?_⟩,
            ⟨b - m, a, true, by omega, by omega, fun r hr => ?_⟩, fun r r' hr hr' => ?_⟩
          · rw [hlo r hr, (key r hr).1, (key r hr).2, Bool.eq_iff_iff]; simp; omega
          · rw [hhi r hr, (key r hr).1, (key r hr).2, Bool.eq_iff_iff]; simp; omega
          · rw [hlo r hr, hhi r' hr', (key r hr).1, (key r hr).2, (key r' hr').1, (key r' hr').2]
            simp; omega
        · refine ⟨⟨b - m, a, false, by omega, by omega, fun r hr => ?_⟩,
            ⟨0, m, false, by omega, by omega, fun r hr => ?_⟩, fun r r' hr hr' => ?_⟩
          · rw [hlo r hr, (key r hr).1, (key r hr).2, Bool.eq_iff_iff]; simp; omega
          · rw [hhi r hr, (key r hr).1, (key r hr).2, Bool.eq_iff_iff]; simp; omega
          · rw [hlo r hr, hhi r' hr', (key r hr).1, (key r hr).2, (key r' hr').1, (key r' hr').2]
            simp; omega
        · refine ⟨⟨b - m, a, true, by omega, by omega, fun r hr => ?_⟩,
            ⟨0, 0, false, by omega, by omega, fun r hr => ?_⟩, fun r r' hr hr' => ?_⟩
          · rw [hlo r hr, (key r hr).1, (key r hr).2, Bool.eq_iff_iff]; simp; omega
          · rw [hhi r hr, (key r hr).1, (key r hr).2, Bool.eq_iff_iff]; simp; omega
          · rw [hlo r hr, hhi r' hr', (key r hr).1, (key r hr).2, (key r' hr').1, (key r' hr').2]
            simp; omega
        · refine ⟨⟨0, m, false, by omega, by omega, fun r hr => ?_⟩,
            ⟨b - m, a, false, by omega, by omega, fun r hr => ?_⟩, fun r r' hr hr' => ?_⟩
          · rw [hlo r hr, (key r hr).1, (key r hr).2, Bool.eq_iff_iff]; simp; omega
          · rw [hhi r hr, (key r hr).1, (key r hr).2, Bool.eq_iff_iff]; simp; omega
          · rw [hlo r hr, hhi r' hr', (key r hr).1, (key r hr).2, (key r' hr').1, (key r' hr').2]
            simp; omega

theorem cex_key_blt_mem (mask : Nat) (dir : Nat → Bool) (x : Nat → Bool) (i : Nat) :
    cex_key mask dir (fun _ => blt) x i = x i ∨
      cex_key mask dir (fun _ => blt) x i = x (i ^^^ mask) := by
  rw [cex_key_blt]
  cases dir i <;> cases x i <;> cases x (i ^^^ mask) <;> simp

/-- One half-cleaner step on an aligned block of `2 ^ (j + 1)` lanes holding a
zero-one bitonic shape: both halves are bitonic again, every lane of the half
that keeps the minima is below every lane of the other half (in the direction
`d`), and the lanes of the block only trade values among themselves. -/
theorem halfclean_block (j q : Nat) (d : Bool) (dir : Nat → Bool) (x : Nat → Bool)
    (hdir : ∀ r, r < 2 ^ (j + 1) →
      dir (2 ^ (j + 1) * q + r) = (d != Nat.testBit (2 ^ (j + 1) * q + r) j))
    (hx : BitonicOn x (2 ^ (j + 1) * q) (2 ^ (j + 1))) :
    BitonicOn (cex_key (2 ^ j) dir (fun _ => blt) x) (2 ^ j * (2 * q)) (2 ^ j) ∧
    BitonicOn (cex_key (2 ^ j) dir (fun _ => blt) x) (2 ^ j * (2 * q + 1)) (2 ^ j) ∧
    (∀ r r', r < 2 ^ j → r' < 2 ^ j →
      (d != cex_key (2 ^ j) dir (fun _ => blt) x (2 ^ j * (2 * q) + r)) = true →
      (d != cex_key (2 ^ j) dir (fun _ => blt) x (2 ^ j * (2 * q + 1) + r')) = true) ∧
    (∀ r, r < 2 ^ (j + 1) → ∃ r', r' < 2 ^ (j + 1) ∧
      cex_key (2 ^ j) dir (fun _ => blt) x (2 ^ (j + 1) * q + r) = x (2 ^ (j + 1) * q + r')) := by
  obtain ⟨a, b, c, hab, hb, hu⟩ := hx
  have hm : 2 ^ (j + 1) = 2 * 2 ^ j := by rw [pow_succ]; ring
  have e0 : 2 ^ j * (2 * q) = 2 ^ (j + 1) * q := by rw [hm]; ring
  have e1 : ∀ r, 2 ^ j * (2 * q + 1) + r = 2 ^ (j + 1) * q + 2 ^ j + r := by
    intro r; rw [hm]; ring
  have hlo : ∀ r, r < 2 ^ j → cex_key (2 ^ j) dir (fun _ => blt) x (2 ^ (j + 1) * q + r) =
      if d then (x (2 ^ (j + 1) * q + r) || x (2 ^ (j + 1) * q + (2 ^ j + r)))
      else (x (2 ^ (j + 1) * q + r) && x (2 ^ (j + 1) * q + (2 ^ j + r))) := by
    intro r hr
    rw [cex_key_blt, hdir r (by omega), testBit_block_low j q r hr, xor_block_low j q r hr,
      Nat.add_assoc]
    cases d <;> simp
  have hhi : ∀ r, r < 2 ^ j →
      cex_key (2 ^ j) dir (fun _ => blt) x (2 ^ (j + 1) * q + 2 ^ j + r) =
      if d then (x (2 ^ (j + 1) * q + r) && x (2 ^ (j + 1) * q + (2 ^ j + r)))
      else (x (2 ^ (j + 1) * q + r) || x (2 ^ (j + 1) * q + (2 ^ j + r))) := by
    intro r hr
    have hd := hdir (2 ^ j + r) (by omega)
    rw [← Nat.add_assoc] at hd
    rw [cex_key_blt, hd, testBit_block_high j q r hr, xor_block_high j q r hr, Nat.add_assoc]
    cases d <;> simp [Bool.and_comm, Bool.or_comm]
  have hu' : ∀ r, r < 2 * 2 ^ j →
      (fun r => x (2 ^ (j + 1) * q + r)) r = (c != decide (a ≤ r ∧ r < b)) := by
    intro r hr; exact hu r (by omega)
  obtain ⟨h1, h2, h3⟩ := halfclean_window (2 ^ j) a b c d hab (by omega)
    (fun r => x (2 ^ (j + 1) * q + r))
    (fun r => cex_key (2 ^ j) dir (fun _ => blt) x (2 ^ (j + 1) * q + r))
    (fun r => cex_key (2 ^ j) dir (fun _ => blt) x (2 ^ (j + 1) * q + 2 ^ j + r))
    hu' hlo hhi
  refine ⟨?_, ?_, ?_, ?_⟩
  · rw [e0]; exact h1
  · obtain ⟨a', b', c', k1, k2, k3⟩ := h2
    exact ⟨a', b', c', k1, k2, fun r hr => by rw [e1]; exact k3 r hr⟩
  · intro r r' hr hr'
    rw [e0, e1]
    exact h3 r r' hr hr'
  · intro r hr
    rcases cex_key_blt_mem (2 ^ j) dir x (2 ^ (j + 1) * q + r) with h | h
    · exact ⟨r, hr, h⟩
    · by_cases hlt : r < 2 ^ j
      · refine ⟨2 ^ j + r, by omega, ?_⟩
        rw [h, xor_block_low j q r hlt, Nat.add_assoc]
      · refine ⟨r - 2 ^ j, by omega, ?_⟩
        have hr2 : r = 2 ^ j + (r - 2 ^ j) := by omega
        rw [h]
        conv_lhs => rw [hr2, ← Nat.add_assoc]
        rw [xor_block_high j q (r - 2 ^ j) (by omega)]

/-- A cascade with masks `2 ^ (s - 1), ..., 2, 1` whose direction flag is
`d` XOR the mask bit of the lane id turns a zero-one bitonic block of `2 ^ s`
lanes into a sorted one (rising for `d = false`, falling for `d = true`). -/
theorem cascade_sorts (s : Nat) : ∀ (q : Nat) (d : Bool) (dirs : Nat → Nat → Bool)
    (x : Nat → Bool),
    (∀ j, j < s → ∀ r, r < 2 ^ s →
      dirs j (2 ^ s * q + r) = (d != Nat.testBit (2 ^ s * q + r) j)) →
    BitonicOn x (2 ^ s * q) (2 ^ s) →
    SortedOn d (cascade_key s dirs (fun _ => blt) x) (2 ^ s * q) (2 ^ s) ∧
    ∀ r, r < 2 ^ s → ∃ r', r' < 2 ^ s ∧
      cascade_key s dirs (fun _ => blt) x (2 ^ s * q + r) = x (2 ^ s * q + r') := by
  induction s with
  | zero =>
    intro q d dirs x _ _
    refine ⟨?_, fun r hr => ⟨r, hr, rfl⟩⟩
    simp only [cascade_key, pow_zero]
    by_cases h : x (1 * q + 0) = (d != true)
    · refine ⟨0, by omega, fun r hr => ?_⟩
      have : r = 0 := by omega
      subst this
      simpa using h
    · refine ⟨1, by omega, fun r hr => ?_⟩
      have : r = 0 := by omega
      subst this
      revert h
      cases x (1 * q + 0) <;> cases d <;> simp
  | succ s ih =>
    intro q d dirs x hdirs hx
    have hm : 2 ^ (s + 1) = 2 * 2 ^ s := by rw [pow_succ]; ring
    have e0 : 2 ^ s * (2 * q) = 2 ^ (s + 1) * q := by rw [hm]; ring
    have e1 : ∀ r, 2 ^ s * (2 * q + 1) + r = 2 ^ (s + 1) * q + (2 ^ s + r) := by
      intro r; rw [hm]; ring
    obtain ⟨b1, b2, cross, range⟩ :=
      halfclean_block s q d (dirs s) x (hdirs s (by omega)) hx
    have d1 : ∀ j, j < s → ∀ r, r < 2 ^ s →
        dirs j (2 ^ s * (2 * q) + r) = (d != Nat.testBit (2 ^ s * (2 * q) + r) j) := by
      intro j hj r hr; rw [e0]; exact hdirs j (by omega) r (by omega)
    have d2 : ∀ j, j < s → ∀ r, r < 2 ^ s →
        dirs j (2 ^ s * (2 * q + 1) + r) = (d != Nat.testBit (2 ^ s * (2 * q + 1) + r) j) := by
      intro j hj r hr; rw [e1]; exact hdirs j (by omega) (2 ^ s + r) (by omega)
    obtain ⟨⟨a1, ha1, s1⟩, r1⟩ := ih (2 * q) d dirs _ d1 b1
    obtain ⟨⟨a2, ha2, s2⟩, r2⟩ := ih (2 * q + 1) d dirs _ d2 b2
    simp only [cascade_key]
    refine ⟨?_, ?_⟩
    · by_cases hlt : a1 < 2 ^ s
      · -- some lane of the lower half is already on the far side of the step
        have top : ∀ r', r' < 2 ^ s →
            cascade_key s dirs (fun _ => blt)
              (cex_key (2 ^ s) (dirs s) (fun _ => blt) x) (2 ^ s * (2 * q + 1) + r')
              = (d != true) := by
          intro r' hr'
          obtain ⟨t1, ht1, et1⟩ := r1 a1 hlt
          obtain ⟨t2, ht2, et2⟩ := r2 r' hr'
          have c1 := cross t1 t2 ht1 ht2
          rw [← et1, ← et2, s1 a1 hlt] at c1
          have c2 := c1 (by cases d <;> simp)
          revert c2
          cases cascade_key s dirs (fun _ => blt)
              (cex_key (2 ^ s) (dirs s) (fun _ => blt) x) (2 ^ s * (2 * q + 1) + r')
            <;> cases d <;> simp
        refine ⟨a1, by omega, fun r hr => ?_⟩
        by_cases hr' : r < 2 ^ s
        · rw [← e0]; exact s1 r hr'
        · have hr2 : r = 2 ^ s + (r - 2 ^ s) := by omega
          rw [hr2, ← e1, top _ (by omega)]
          have : a1 ≤ 2 ^ s + (r - 2 ^ s) := by omega
          simp [this]
      · have ha : a1 = 2 ^ s := by omega
        refine ⟨2 ^ s + a2, by omega, fun r hr => ?_⟩
        by_cases hr' : r < 2 ^ s
        · rw [← e0, s1 r hr']
          have h1 : ¬ a1 ≤ r := by omega
          have h2 : ¬ 2 ^ s + a2 ≤ r := by omega
          simp [h1, h2]
        · have hr2 : r = 2 ^ s + (r - 2 ^ s) := by omega
          rw [hr2, ← e1, s2 _ (by omega)]
          simp
    · intro r hr
      by_cases hr' : r < 2 ^ s
      · obtain ⟨t1, ht1, et1⟩ := r1 r hr'
        rw [e0] at et1
        obtain ⟨t2, ht2, et2⟩ := range t1 (by omega)
        exact ⟨t2, ht2, by rw [et1, et2]⟩
      · have hr2 : r = 2 ^ s + (r - 2 ^ s) := by omega
        obtain ⟨t1, ht1, et1⟩ := r2 (r - 2 ^ s) (by omega)
        simp only [e1] at et1
        obtain ⟨t2, ht2, et2⟩ := range (2 ^ s + t1) (by omega)
        refine ⟨t2, ht2, ?_⟩
        rw [hr2, et1, et2]

theorem altSorted_zero (x : Nat → Bool) : AltSorted 0 x := by
  intro q
  simp only [pow_zero]
  by_cases h : x (1 * q + 0) = (Nat.testBit q 0 != true)
  · refine ⟨0, by omega, fun r hr => ?_⟩
    have : r = 0 := by omega
    subst this
    simpa using h
  · refine ⟨1, by omega, fun r hr => ?_⟩
    have : r = 0 := by omega
    subst this
    revert h
    cases x (1 * q + 0) <;> cases Nat.testBit q 0 <;> simp

theorem bitonicOn_of_altSorted (t q : Nat) (x : Nat → Bool) (h : AltSorted t x) :
    BitonicOn x (2 ^ (t + 1) * q) (2 ^ (t + 1)) := by
  have hm : 2 ^ (t + 1) = 2 * 2 ^ t := by rw [pow_succ]; ring
  have e0 : 2 ^ t * (2 * q) = 2 ^ (t + 1) * q := by rw [hm]; ring
  have e1 : ∀ r, 2 ^ t * (2 * q + 1) + r = 2 ^ (t + 1) * q + (2 ^ t + r) := by
    intro r; rw [hm]; ring
  obtain ⟨a1, ha1, s1⟩ := h (2 * q)
  obtain ⟨a2, ha2, s2⟩ := h (2 * q + 1)
  have p0 : Nat.testBit (2 * q) 0 = false := by simp
  have p1 : Nat.testBit (2 * q + 1) 0 = true := by simp; omega
  rw [p0, e0] at s1
  rw [p1] at s2
  refine ⟨a1, 2 ^ t + a2, false, by omega, by omega, fun r hr => ?_⟩
  by_cases hr' : r < 2 ^ t
  · rw [s1 r hr', Bool.eq_iff_iff]
    simp
    omega
  · have hr2 : r = 2 ^ t + (r - 2 ^ t) := by omega
    have := s2 (r - 2 ^ t) (by omega)
    rw [e1, ← hr2] at this
    rw [this, Bool.eq_iff_iff]
    simp
    omega

theorem build_key_altSorted (t : Nat) (x : Nat → Bool) :
    AltSorted t (build_key t (fun _ => blt) x) := by
  induction t with
  | zero => exact altSorted_zero _
  | succ t ih =>
    intro q
    simp only [build_key]
    refine (cascade_sorts (t + 1) q (Nat.testBit q 0) _ _ ?_
      (bitonicOn_of_altSorted t q _ ih)).1
    intro j _ r hr
    rw [get_bit_ne_get_bit, testBit_block_top (t + 1) q r hr]

theorem network_key_sortedOn (n : Nat) (hn : 1 ≤ n) (x : Nat → Bool) :
    SortedOn false (network_key n (fun _ => blt) x) 0 (2 ^ n) := by
  obtain ⟨t, rfl⟩ : ∃ t, n = t + 1 := ⟨n - 1, by omega⟩
  simp only [network_key, Nat.add_sub_cancel]
  have h := (cascade_sorts (t + 1) 0 false (fun j id => get_bit id j != 0)
    (build_key t (fun _ => blt) x) ?_
    (bitonicOn_of_altSorted t 0 _ (build_key_altSorted t x))).1
  · simpa using h
  · intro j _ r _
    simp [get_bit_ne_zero]

/-! ## The zero-one principle for this network -/

theorem StrictWeakOrder.asymm {K : Type} {less : K → K → Bool} (h : StrictWeakOrder less)
    (a b : K) (hab : less a b = true) : less b a = false := by
  cases hba : less b a
  · rfl
  · have := h.trans a b a hab hba
    rw [h.irrefl a] at this
    exact absurd this (by simp)

theorem StrictWeakOrder.neg_trans {K : Type} {less : K → K → Bool} (h : StrictWeakOrder less)
    (a b c : K) (hab : less a b = false) (hbc : less b c = false) : less a c = false := by
  cases hac : less a c
  · rfl
  · cases hba : less b a
    · cases hcb : less c b
      · have := (h.incomp_trans a b c hab hba hbc hcb).1
        rw [hac] at this
        exact absurd this (by simp)
      · have := h.trans a c b hac hcb
        rw [hab] at this
        exact absurd this (by simp)
    · have := h.trans b a c hba hac
      rw [hbc] at this
      exact absurd this (by simp)

theorem cex_key_map {K : Type} (less : K → K → Bool) (f : K → Bool)
    (hasymm : ∀ a b, less a b = true → less b a = false)
    (hf : ∀ a b, less b a = false → f a = true → f b = true)
    (mask : Nat) (dir : Nat → Bool) (k : Nat → K) :
    (fun i => f (cex_key mask dir (fun _ => less) k i)) =
      cex_key mask dir (fun _ => blt) (fun i => f (k i)) := by
  funext i
  rw [cex_key_blt]
  simp only [cex_key, swap_key, warp_shuffle_xor]
  have h1 := hf (k i) (k (i ^^^ mask))
  have h2 := hf (k (i ^^^ mask)) (k i)
  have h3 := hasymm (k i) (k (i ^^^ mask))
  have h4 := hasymm (k (i ^^^ mask)) (k i)
  cases hd : dir i <;> cases hl : less (k i) (k (i ^^^ mask)) <;>
    cases hl' : less (k (i ^^^ mask)) (k i) <;>
    cases hfi : f (k i) <;> cases hfp : f (k (i ^^^ mask)) <;>
    simp_all

theorem cascade_key_map {K : Type} (less : K → K → Bool) (f : K → Bool)
    (hasymm : ∀ a b, less a b = true → less b a = false)
    (hf : ∀ a b, less b a = false → f a = true → f b = true)
    (s : Nat) (dirs : Nat → Nat → Bool) : ∀ k : Nat → K,
    (fun i => f (cascade_key s dirs (fun _ => less) k i)) =
      cascade_key s dirs (fun _ => blt) (fun i => f (k i)) := by
  induction s with
  | zero => intro k; rfl
  | succ s ih =>
    intro k
    simp only [cascade_key]
    rw [ih, cex_key_map less f hasymm hf]

theorem build_key_map {K : Type} (less : K → K → Bool) (f : K → Bool)
    (hasymm : ∀ a b, less a b = true → less b a = false)
    (hf : ∀ a b, less b a = false → f a = true → f b = true)
    (t : Nat) (k : Nat → K) :
    (fun i => f (build_key t (fun _ => less) k i)) =
      build_key t (fun _ => blt) (fun i => f (k i)) := by
  induction t with
  | zero => rfl
  | succ t ih =>
    simp only [build_key]
    rw [cascade_key_map less f hasymm hf, ih]

theorem network_key_map {K : Type} (less : K → K → Bool) (f : K → Bool)
    (hasymm : ∀ a b, less a b = true → less b a = false)
    (hf : ∀ a b, less b a = false → f a = true → f b = true)
    (n : Nat) (k : Nat → K) :
    (fun i => f (network_key n (fun _ => less) k i)) =
      network_key n (fun _ => blt) (fun i => f (k i)) := by
  simp only [network_key]
  rw [cascade_key_map less f hasymm hf, build_key_map less f hasymm hf]

/-- The generic network of `n` stages sorts `2 ^ n` lanes under any strict weak
ordering: no later lane holds a key that is less than an earlier lane's key. -/
theorem network_key_sorted {K : Type} (less : K → K → Bool) (hless : StrictWeakOrder less)
    (n : Nat) (hn : 1 ≤ n) (k : Nat → K) (i j : Nat) (hij : i < j) (hj : j < 2 ^ n) :
    less (network_key n (fun _ => less) k j) (network_key n (fun _ => less) k i) = false := by
  cases hc : less (network_key n (fun _ => less) k j) (network_key n (fun _ => less) k i)
  · rfl
  · exfalso
    have hf : ∀ a b, less b a = false → less (network_key n (fun _ => less) k j) a = true →
        less (network_key n (fun _ => less) k j) b = true := by
      intro a b hba hta
      cases htb : less (network_key n (fun _ => less) k j) b
      · have := hless.neg_trans _ b a htb hba
        rw [hta] at this
        exact absurd this (by simp)
      · rfl
    have hmap := network_key_map less (fun x => less (network_key n (fun _ => less) k j) x)
      hless.asymm hf n k
    obtain ⟨a, _, hs⟩ := network_key_sortedOn n hn
      (fun i => less (network_key n (fun _ => less) k j) (k i))
    rw [← hmap] at hs
    have hi := hs i (by omega)
    have hj' := hs j hj
    simp only [Nat.zero_add, hc, hless.irrefl] at hi hj'
    simp at hi hj'
    omega

theorem width_cases {WarpSize : Nat} (hW : WarpSize ∈ [2, 4, 8, 16, 32, 64]) :
    ∃ n, 1 ≤ n ∧ n ≤ 6 ∧ WarpSize = 2 ^ n := by
  simp only [List.mem_cons, List.mem_singleton, List.not_mem_nil, or_false] at hW
  rcases hW with rfl | rfl | rfl | rfl | rfl | rfl
  · exact ⟨1, by norm_num⟩
  · exact ⟨2, by norm_num⟩
  · exact ⟨3, by norm_num⟩
  · exact ⟨4, by norm_num⟩
  · exact ⟨5, by norm_num⟩
  · exact ⟨6, by norm_num⟩

theorem sort_key_sorted {K : Type} (WarpSize : Nat) (hW : WarpSize ∈ [2, 4, 8, 16, 32, 64])
    (less : K → K → Bool) (hless : StrictWeakOrder less) (key : Nat → K)
    (i j : Nat) (hij : i < j) (hj : j < WarpSize) :
    less (sort_key WarpSize key (fun _ => less) j) (sort_key WarpSize key (fun _ => less) i)
      = false := by
  obtain ⟨n, h1, h6, rfl⟩ := width_cases hW
  unfold sort_key
  rw [bitonic_sort_key_eq_network n h1 h6]
  exact network_key_sorted less hless n h1 key i j hij hj

/-! ## Key-only and key/value networks move the same lanes -/

theorem swap_fst {K V : Type} (WarpSize warp : Nat) (k : Nat → K) (v : Nat → V) (mask : Nat)
    (dir : Nat → Bool) (cmp : Nat → K → K → Bool) :
    (swap WarpSize warp k v mask dir cmp).1 = swap_key WarpSize warp k mask dir cmp := by
  unfold swap swap_key
  split <;> rfl

theorem foldl_swap_fst {K V : Type} (WarpSize : Nat) (cmp : Nat → K → K → Bool)
    (l : List Step) : ∀ kv : (Nat → K) × (Nat → V),
    (l.foldl (fun kv s => swap WarpSize s.warp kv.1 kv.2 s.mask
        (fun lane => s.dir (logical_lane_id WarpSize lane)) cmp) kv).1 =
      l.foldl (fun k s => swap_key WarpSize s.warp k s.mask
        (fun lane => s.dir (logical_lane_id WarpSize lane)) cmp) kv.1 := by
  induction l with
  | nil => intro kv; rfl
  | cons s l ih =>
    intro kv
    simp only [List.foldl_cons]
    rw [ih, swap_fst]

theorem bitonic_sort_fst {K V : Type} (WarpSize : Nat) (cmp : Nat → K → K → Bool)
    (k : Nat → K) (v : Nat → V) :
    (bitonic_sort WarpSize cmp (k, v)).1 = bitonic_sort_key WarpSize cmp k :=
  foldl_swap_fst WarpSize cmp schedule (k, v)

/-! ## Values ride along: the payload is carried by a lane map -/

theorem swap_map_value {K V V' : Type} (g : V → V') (WarpSize warp : Nat) (k : Nat → K)
    (v : Nat → V) (mask : Nat) (dir : Nat → Bool) (cmp : Nat → K → K → Bool) :
    swap WarpSize warp k (fun i => g (v i)) mask dir cmp =
      ((swap WarpSize warp k v mask dir cmp).1,
        fun i => g ((swap WarpSize warp k v mask dir cmp).2 i)) := by
  unfold swap
  split
  · simp only [warp_shuffle_xor]
    refine Prod.ext rfl ?_
    funext i
    simp only [apply_ite g]
  · rfl

theorem foldl_swap_map_value {K V V' : Type} (g : V → V') (WarpSize : Nat)
    (cmp : Nat → K → K → Bool) (l : List Step) : ∀ (k : Nat → K) (v : Nat → V),
    l.foldl (fun kv s => swap WarpSize s.warp kv.1 kv.2 s.mask
        (fun lane => s.dir (logical_lane_id WarpSize lane)) cmp) (k, fun i => g (v i)) =
      ((l.foldl (fun kv s => swap WarpSize s.warp kv.1 kv.2 s.mask
          (fun lane => s.dir (logical_lane_id WarpSize lane)) cmp) (k, v)).1,
        fun i => g ((l.foldl (fun kv s => swap WarpSize s.warp kv.1 kv.2 s.mask
          (fun lane => s.dir (logical_lane_id WarpSize lane)) cmp) (k, v)).2 i)) := by
  induction l with
  | nil => intro k v; rfl
  | cons s l ih =>
    intro k v
    simp only [List.foldl_cons]
    rw [swap_map_value g, ih]

theorem bitonic_sort_map_value {K V V' : Type} (g : V → V') (WarpSize : Nat)
    (cmp : Nat → K → K → Bool) (k : Nat → K) (v : Nat → V) :
    bitonic_sort WarpSize cmp (k, fun i => g (v i)) =
      ((bitonic_sort WarpSize cmp (k, v)).1,
        fun i => g ((bitonic_sort WarpSize cmp (k, v)).2 i)) :=
  foldl_swap_map_value g WarpSize cmp schedule k v

theorem sort_large_eq_sort_small {K V : Type} (WarpSize : Nat) (key : Nat → K)
    (value : Nat → V) (cmp : Nat → K → K → Bool) :
    sort_large WarpSize key value cmp = sort_small WarpSize key value cmp := by
  unfold sort_large sort_small warp_shuffle
  have h := bitonic_sort_map_value value WarpSize cmp key (logical_lane_id WarpSize)
  simp only [logical_lane_id] at h ⊢
  rw [h]

/-! ## Every step is a permutation of the lanes -/

theorem xor_lt_iff {n mask i : Nat} (hmask : mask < 2 ^ n) :
    i ^^^ mask < 2 ^ n ↔ i < 2 ^ n := by
  constructor
  · intro h
    have := Nat.xor_lt_two_pow h hmask
    rwa [Nat.xor_assoc, Nat.xor_self, Nat.xor_zero] at this
  · intro h
    exact Nat.xor_lt_two_pow h hmask

theorem swap_perm {K V : Type} (n WarpSize warp : Nat) (hW : WarpSize = 2 ^ n)
    (k : Nat → K) (v : Nat → V) (mask : Nat) (dir : Nat → Bool) (less : K → K → Bool)
    (hmask : WarpSize > warp → mask < WarpSize) (hdir : ∀ i, dir (i ^^^ mask) = !dir i) :
    ∃ σ : Equiv.Perm Nat, (∀ i, σ i < WarpSize ↔ i < WarpSize) ∧
      swap WarpSize warp k v mask dir (fun _ => less) = (fun i => k (σ i), fun i => v (σ i)) := by
  by_cases hw : WarpSize > warp
  · have hinv : Function.Involutive (fun i =>
        if less (if dir i then k i else k (i ^^^ mask)) (if dir i then k (i ^^^ mask) else k i)
        then i ^^^ mask else i) := by
      intro i
      have hx : (i ^^^ mask) ^^^ mask = i := by
        rw [Nat.xor_assoc, Nat.xor_self, Nat.xor_zero]
      have hd := hdir i
      simp only
      cases hdi : dir i <;> simp only [hdi, Bool.not_true, Bool.not_false] at hd <;>
        cases hl : less (k (i ^^^ mask)) (k i) <;> cases hl' : less (k i) (k (i ^^^ mask)) <;>
        simp [hd, hdi, hx, hl, hl']
    refine ⟨hinv.toPerm _, fun i => ?_, ?_⟩
    · simp only [Function.Involutive.coe_toPerm]
      by_cases hc : less (if dir i then k i else k (i ^^^ mask))
          (if dir i then k (i ^^^ mask) else k i) = true
      · rw [if_pos hc, hW]
        exact xor_lt_iff (hW ▸ hmask hw)
      · rw [if_neg hc]
    · simp only [swap, hw, if_true, warp_shuffle_xor, Function.Involutive.coe_toPerm]
      refine Prod.ext ?_ ?_
      · funext i
        simp only [apply_ite k]
      · funext i
        simp only [apply_ite v]
  · refine ⟨Equiv.refl _, fun i => Iff.rfl, ?_⟩
    simp [swap, hw]

theorem foldl_swap_perm {K V : Type} (n WarpSize : Nat) (hW : WarpSize = 2 ^ n)
    (less : K → K → Bool) (l : List Step)
    (hl : ∀ s ∈ l, (WarpSize > s.warp → s.mask < WarpSize) ∧
      ∀ i, s.dir (i ^^^ s.mask) = !s.dir i) :
    ∀ (k : Nat → K) (v : Nat → V),
    ∃ σ : Equiv.Perm Nat, (∀ i, σ i < WarpSize ↔ i < WarpSize) ∧
      l.foldl (fun kv s => swap WarpSize s.warp kv.1 kv.2 s.mask
        (fun lane => s.dir (logical_lane_id WarpSize lane)) (fun _ => less)) (k, v) =
      (fun i => k (σ i), fun i => v (σ i)) := by
  induction l with
  | nil => intro k v; exact ⟨Equiv.refl _, fun i => Iff.rfl, rfl⟩
  | cons s l ih =>
    intro k v
    obtain ⟨h1, h2⟩ := hl s (List.mem_cons_self _ _)
    obtain ⟨σ1, b1, e1⟩ := swap_perm n WarpSize s.warp hW k v s.mask
      (fun lane => s.dir (logical_lane_id WarpSize lane)) less h1 h2
    obtain ⟨σ2, b2, e2⟩ := ih (fun s' hs' => hl s' (List.mem_cons_of_mem _ hs'))
      (fun i => k (σ1 i)) (fun i => v (σ1 i))
    refine ⟨σ2.trans σ1, fun i => ?_, ?_⟩
    · simp only [Equiv.trans_apply]
      rw [b1, b2]
    · simp only [List.foldl_cons]
      rw [e1, e2]
      rfl

theorem schedule_masks : ∀ s ∈ schedule, s.mask ≤ s.warp ∨ s.mask = 1 := by
  decide

theorem testBit_xor_pow (i j b : Nat) :
    Nat.testBit (i ^^^ 2 ^ j) b = (Nat.testBit i b != decide (j = b)) := by
  rw [Nat.testBit_xor, Nat.testBit_two_pow]

theorem schedule_dirs : ∀ s ∈ schedule, ∀ i, s.dir (i ^^^ s.mask) = !s.dir i := by
  have p0 : ∀ i b, Nat.testBit (i ^^^ 1) b = (Nat.testBit i b != decide (0 = b)) :=
    fun i b => testBit_xor_pow i 0 b
  have p1 : ∀ i b, Nat.testBit (i ^^^ 2) b = (Nat.testBit i b != decide (1 = b)) :=
    fun i b => testBit_xor_pow i 1 b
  have p2 : ∀ i b, Nat.testBit (i ^^^ 4) b = (Nat.testBit i b != decide (2 = b)) :=
    fun i b => testBit_xor_pow i 2 b
  have p3 : ∀ i b, Nat.testBit (i ^^^ 8) b = (Nat.testBit i b != decide (3 = b)) :=
    fun i b => testBit_xor_pow i 3 b
  have p4 : ∀ i b, Nat.testBit (i ^^^ 16) b = (Nat.testBit i b != decide (4 = b)) :=
    fun i b => testBit_xor_pow i 4 b
  have p5 : ∀ i b, Nat.testBit (i ^^^ 32) b = (Nat.testBit i b != decide (5 = b)) :=
    fun i b => testBit_xor_pow i 5 b
  intro s hs i
  simp only [schedule, List.mem_cons, List.mem_singleton, List.not_mem_nil, or_false] at hs
  rcases hs with h | h | h | h | h | h | h | h | h | h | h | h | h | h | h | h | h | h | h | h | h <;>
    subst h <;>
    simp only [get_bit_ne_get_bit, get_bit_ne_zero, p0, p1, p2, p3, p4, p5] <;>
    cases Nat.testBit i 0 <;> cases Nat.testBit i 1 <;> cases Nat.testBit i 2 <;>
    cases Nat.testBit i 3 <;> cases Nat.testBit i 4 <;> cases Nat.testBit i 5 <;> decide

theorem bitonic_sort_perm {K V : Type} (WarpSize : Nat)
    (hW : WarpSize ∈ [2, 4, 8, 16, 32, 64]) (less : K → K → Bool)
    (k : Nat → K) (v : Nat → V) :
    ∃ σ : Equiv.Perm Nat, (∀ i, σ i < WarpSize ↔ i < WarpSize) ∧
      bitonic_sort WarpSize (fun _ => less) (k, v) = (fun i => k (σ i), fun i => v (σ i)) := by
  obtain ⟨n, h1, _, hn⟩ := width_cases hW
  have h2 : 2 ≤ WarpSize := by
    rw [hn]
    calc 2 = 2 ^ 1 := by norm_num
      _ ≤ 2 ^ n := Nat.pow_le_pow_right (by norm_num) h1
  refine foldl_swap_perm n WarpSize hn less schedule ?_ k v
  intro s hs
  refine ⟨fun hw => ?_, schedule_dirs s hs⟩
  rcases schedule_masks s hs with h | h <;> omega

theorem fin_perm_of_nat_perm (W : Nat) (σ : Equiv.Perm Nat) (h : ∀ i, σ i < W ↔ i < W) :
    ∃ τ : Equiv.Perm (Fin W), ∀ i : Fin W, ((τ i : Fin W) : Nat) = σ i := by
  have hs : ∀ i, σ.symm i < W ↔ i < W := by
    intro i
    have := h (σ.symm i)
    rw [Equiv.apply_symm_apply] at this
    exact this.symm
  refine ⟨⟨fun i => ⟨σ i, (h i).2 i.2⟩, fun i => ⟨σ.symm i, (hs i).2 i.2⟩, ?_, ?_⟩,
    fun i => rfl⟩
  · intro i; simp
  · intro i; simp

/-! ## Strict total orders and distinct keys -/

theorem StrictTotalOrder.eq_of_incomp {K : Type} {less : K → K → Bool}
    (h : StrictTotalOrder less) (a b : K) (hab : less a b = false) (hba : less b a = false) :
    a = b := by
  by_contra hne
  rcases h.total a b hne with h1 | h1
  · rw [hab] at h1; exact absurd h1 (by simp)
  · rw [hba] at h1; exact absurd h1 (by simp)

theorem StrictTotalOrder.toWeak {K : Type} {less : K → K → Bool}
    (h : StrictTotalOrder less) : StrictWeakOrder less := by
  refine ⟨h.irrefl, h.trans, fun a b c hab hba hbc hcb => ?_⟩
  have e1 := h.eq_of_incomp a b hab hba
  have e2 := h.eq_of_incomp b c hbc hcb
  subst e1
  subst e2
  exact ⟨h.irrefl _, h.irrefl _⟩

theorem StrictTotalOrder.inverse {K : Type} {less : K → K → Bool}
    (h : StrictTotalOrder less) : StrictTotalOrder (fun a b => less b a) :=
  ⟨h.irrefl, fun a b c hab hbc => h.trans c b a hbc hab,
    fun a b hne => (h.total a b hne).symm⟩

theorem sort_key_perm {K : Type} (WarpSize : Nat) (hW : WarpSize ∈ [2, 4, 8, 16, 32, 64])
    (less : K → K → Bool) (key : Nat → K) :
    ∃ σ : Equiv.Perm Nat, (∀ i, σ i < WarpSize ↔ i < WarpSize) ∧
      sort_key WarpSize key (fun _ => less) = fun i => key (σ i) := by
  obtain ⟨σ, hσ, e⟩ := bitonic_sort_perm WarpSize hW less key key
  refine ⟨σ, hσ, ?_⟩
  unfold sort_key
  rw [← bitonic_sort_fst WarpSize (fun _ => less) key key, e]

theorem sort_key_strict {K : Type} (WarpSize : Nat) (hW : WarpSize ∈ [2, 4, 8, 16, 32, 64])
    (less : K → K → Bool) (hless : StrictTotalOrder less) (key : Nat → K)
    (hkey : ∀ a, a < WarpSize → ∀ b, b < WarpSize → a ≠ b → key a ≠ key b)
    (i j : Nat) (hij : i < j) (hj : j < WarpSize) :
    less (sort_key WarpSize key (fun _ => less) i) (sort_key WarpSize key (fun _ => less) j)
      = true := by
  have hs := sort_key_sorted WarpSize hW less hless.toWeak key i j hij hj
  obtain ⟨σ, hσ, e⟩ := sort_key_perm WarpSize hW less key
  have hne : sort_key WarpSize key (fun _ => less) i ≠ sort_key WarpSize key (fun _ => less) j := by
    rw [e]
    refine hkey (σ i) ((hσ i).2 (by omega)) (σ j) ((hσ j).2 hj) ?_
    intro h
    have := σ.injective h
    omega
  rcases hless.total _ _ hne with h | h
  · exact h
  · rw [hs] at h; exact absurd h (by simp)

theorem ofFn_perm_of_nat_perm {K : Type} (W : Nat) (key : Nat → K) (σ : Equiv.Perm Nat)
    (h : ∀ i, σ i < W ↔ i < W) :
    List.Perm (List.ofFn (fun i : Fin W => key (σ i))) (List.ofFn (fun i : Fin W => key i)) := by
  obtain ⟨τ, hτ⟩ := fin_perm_of_nat_perm W σ h
  have := Equiv.Perm.ofFn_comp_perm τ (fun i : Fin W => key i)
  have e : (fun i : Fin W => key (σ i)) = (fun i : Fin W => key i) ∘ τ := by
    funext i
    simp [hτ i]
  rw [e]
  exact this

theorem reverse_of_sorted_both {K : Type} (W : Nat) (less : K → K → Bool)
    (hless : StrictTotalOrder less) (up down : Nat → K)
    (hperm : List.Perm (List.ofFn (fun i : Fin W => up i)) (List.ofFn (fun i : Fin W => down i)))
    (hup : ∀ i j, i < j → j < W → less (up i) (up j) = true)
    (hdown : ∀ i j, i < j → j < W → less (down j) (down i) = true)
    (i : Nat) (hi : i < W) : down i = up (W - 1 - i) := by
  haveI : IsAntisymm K (fun a b => less a b = true) :=
    ⟨fun a b hab hba => by
      have := hless.toWeak.asymm a b hab
      rw [hba] at this
      exact absurd this (by simp)⟩
  have s1 : List.Sorted (fun a b => less a b = true) (List.ofFn (fun i : Fin W => up i)) := by
    unfold List.Sorted
    rw [List.pairwise_ofFn]
    intro a b hab
    exact hup a b hab b.2
  have s2 : List.Sorted (fun a b => less a b = true)
      (List.ofFn (fun i : Fin W => down i)).reverse := by
    unfold List.Sorted
    rw [List.pairwise_reverse, List.pairwise_ofFn]
    intro a b hab
    exact hdown a b hab b.2
  have e := List.eq_of_perm_of_sorted (hperm.trans (List.reverse_perm _).symm) s1 s2
  have h1 : W - 1 - i < (List.ofFn (fun i : Fin W => up i)).length := by
    rw [List.length_ofFn]; omega
  have h2 : W - 1 - i < (List.ofFn (fun i : Fin W => down i)).reverse.length := by
    rw [List.length_reverse, List.length_ofFn]; omega
  have e2 : (List.ofFn (fun i : Fin W => up i))[W - 1 - i] =
      (List.ofFn (fun i : Fin W => down i)).reverse[W - 1 - i] := by
    simp only [e]
  rw [List.getElem_reverse, List.getElem_ofFn, List.getElem_ofFn] at e2
  simp only [List.length_ofFn] at e2
  rw [e2]
  congr 1
  omega

/-! ## The claims -/

theorem numeric_less_total : StrictTotalOrder numeric_less :=
  ⟨fun a => by simp [numeric_less],
    fun a b c => by simp only [numeric_less, decide_eq_true_eq]; omega,
    fun a b => by simp only [numeric_less, decide_eq_true_eq]; omega⟩

/-- C1: for every width in {2,4,8,16,32,64} and pairwise distinct keys under a
strict total order, the keys left by `sort(key, less)` are strictly ascending
in lane-id order. -/
theorem sort_key_strictly_ascending {K : Type} (WarpSize : Nat)
    (hW : WarpSize ∈ [2, 4, 8, 16, 32, 64]) (less : K → K → Bool)
    (hless : StrictTotalOrder less) (key : Nat → K)
    (hkey : ∀ a, a < WarpSize → ∀ b, b < WarpSize → a ≠ b → key a ≠ key b)
    (i j : Nat) (hij : i < j) (hj : j < WarpSize) :
    less (sort_key WarpSize key (fun _ => less) i) (sort_key WarpSize key (fun _ => less) j)
      = true :=
  sort_key_strict WarpSize hW less hless key hkey i j hij hj

theorem sort_key_strictly_ascending_witness :
    4 ∈ [2, 4, 8, 16, 32, 64] ∧ StrictTotalOrder numeric_less ∧
    (∀ a, a < 4 → ∀ b, b < 4 → a ≠ b → lanes [3, 1, 4, 2] 0 a ≠ lanes [3, 1, 4, 2] 0 b) ∧
    numeric_less (sort_key 4 (lanes [3, 1, 4, 2] 0) (fun _ => numeric_less) 1)
      (sort_key 4 (lanes [3, 1, 4, 2] 0) (fun _ => numeric_less) 2) = true :=
  ⟨by decide, numeric_less_total, by decide,
    sort_key_strictly_ascending 4 (by decide) numeric_less numeric_less_total
      (lanes [3, 1, 4, 2] 0) (by decide) 1 2 (by decide) (by decide)⟩

/-- C2: for every width in {2,4,8,16,32,64}, every strict weak ordering and every
input (duplicates and equivalent keys allowed), after `sort(key, less)` no
later lane holds a key that is less than an earlier lane's key. -/
theorem sort_key_no_inversion {K : Type} (WarpSize : Nat)
    (hW : WarpSize ∈ [2, 4, 8, 16, 32, 64]) (less : K → K → Bool)
    (hless : StrictWeakOrder less) (key : Nat → K)
    (i j : Nat) (hij : i < j) (hj : j < WarpSize) :
    less (sort_key WarpSize key (fun _ => less) j) (sort_key WarpSize key (fun _ => less) i)
      = false :=
  sort_key_sorted WarpSize hW less hless key i j hij hj

theorem half_less_weak : StrictWeakOrder half_less :=
  ⟨fun a => by simp [half_less],
    fun a b c => by simp only [half_less, decide_eq_true_eq]; omega,
    fun a b c => by simp only [half_less, decide_eq_false_iff_not]; omega⟩

theorem sort_key_no_inversion_witness :
    4 ∈ [2, 4, 8, 16, 32, 64] ∧ StrictWeakOrder half_less ∧
    half_less (sort_key 4 (lanes [5, 3, 2, 3] 0) (fun _ => half_less) 2)
      (sort_key 4 (lanes [5, 3, 2, 3] 0) (fun _ => half_less) 0) = false :=
  ⟨by decide, half_less_weak,
    sort_key_no_inversion 4 (by decide) half_less half_less_weak (lanes [5, 3, 2, 3] 0)
      0 2 (by decide) (by decide)⟩

/-- C3: for every width in {2,4,8,16,32,64}, every comparator and every input of
(key, value) pairs, the direct `sort(key, value, less)` only moves whole pairs:
some permutation `s` of the lanes gives, for every lane `i`, the output pair as
the input pair of lane `s i`. -/
theorem sort_small_moves_whole_pairs {K V : Type} (WarpSize : Nat)
    (hW : WarpSize ∈ [2, 4, 8, 16, 32, 64]) (less : K → K → Bool)
    (key : Nat → K) (value : Nat → V) :
    ∃ s : Equiv.Perm (Fin WarpSize), ∀ i : Fin WarpSize,
      ((sort_small WarpSize key value (fun _ => less)).1 i,
        (sort_small WarpSize key value (fun _ => less)).2 i) = (key (s i), value (s i)) := by
  obtain ⟨σ, hσ, e⟩ := bitonic_sort_perm WarpSize hW less key value
  obtain ⟨τ, hτ⟩ := fin_perm_of_nat_perm WarpSize σ hσ
  refine ⟨τ, fun i => ?_⟩
  unfold sort_small
  rw [e, hτ i]

theorem sort_small_moves_whole_pairs_witness :
    4 ∈ [2, 4, 8, 16, 32, 64] ∧
    ∃ s : Equiv.Perm (Fin 4), ∀ i : Fin 4,
      ((sort_small 4 (lanes [2, 0, 1, 1] 0) (lanes ["p", "q", "r", "s"] "")
          (fun _ => numeric_less)).1 i,
        (sort_small 4 (lanes [2, 0, 1, 1] 0) (lanes ["p", "q", "r", "s"] "")
          (fun _ => numeric_less)).2 i) =
      (lanes [2, 0, 1, 1] 0 (s i), lanes ["p", "q", "r", "s"] "" (s i)) :=
  ⟨by decide, sort_small_moves_whole_pairs 4 (by decide) numeric_less
    (lanes [2, 0, 1, 1] 0) (lanes ["p", "q", "r", "s"] "")⟩

/-- C4: the large-payload strategy (network on key and lane id, then one gather)
leaves in every lane the same key and the same value as the small-payload
strategy, for every width, comparator and input. -/
theorem sort_large_same_as_sort_small {K V : Type} (WarpSize : Nat) (key : Nat → K)
    (value : Nat → V) (compare_function : Nat → K → K → Bool) (lane : Nat) :
    (sort_large WarpSize key value compare_function).1 lane =
      (sort_small WarpSize key value compare_function).1 lane ∧
    (sort_large WarpSize key value compare_function).2 lane =
      (sort_small WarpSize key value compare_function).2 lane := by
  rw [sort_large_eq_sort_small]
  exact ⟨rfl, rfl⟩

/-- C5: for every width in {2,4,8,16,32,64} and pairwise distinct keys under a
strict total order `less`, sorting with the inverse comparator leaves the
keys strictly descending under `less`, and lane `i` holds what lane
`WarpSize - 1 - i` holds after sorting with `less`. -/
theorem sort_key_inverse_descending {K : Type} (WarpSize : Nat)
    (hW : WarpSize ∈ [2, 4, 8, 16, 32, 64]) (less : K → K → Bool)
    (hless : StrictTotalOrder less) (key : Nat → K)
    (hkey : ∀ a, a < WarpSize → ∀ b, b < WarpSize → a ≠ b → key a ≠ key b) :
    (∀ i j, i < j → j < WarpSize →
      less (sort_key WarpSize key (fun _ a b => less b a) j)
        (sort_key WarpSize key (fun _ a b => less b a) i) = true) ∧
    (∀ i, i < WarpSize →
      sort_key WarpSize key (fun _ a b => less b a) i =
        sort_key WarpSize key (fun _ => less) (WarpSize - 1 - i)) := by
  have hdown : ∀ i j, i < j → j < WarpSize →
      less (sort_key WarpSize key (fun _ a b => less b a) j)
        (sort_key WarpSize key (fun _ a b => less b a) i) = true := fun i j hij hj =>
    sort_key_strict WarpSize hW (fun a b => less b a) hless.inverse key hkey i j hij hj
  refine ⟨hdown, fun i hi => ?_⟩
  obtain ⟨σ, hσ, e⟩ := sort_key_perm WarpSize hW less key
  obtain ⟨σ', hσ', e'⟩ := sort_key_perm WarpSize hW (fun a b => less b a) key
  refine reverse_of_sorted_both WarpSize less hless _ _ ?_
    (fun a b hab hb => sort_key_strict WarpSize hW less hless key hkey a b hab hb) hdown i hi
  rw [e, e']
  exact (ofFn_perm_of_nat_perm WarpSize key σ hσ).trans
    (ofFn_perm_of_nat_perm WarpSize key σ' hσ').symm

theorem sort_key_inverse_descending_witness :
    4 ∈ [2, 4, 8, 16, 32, 64] ∧ StrictTotalOrder numeric_less ∧
    (∀ a, a < 4 → ∀ b, b < 4 → a ≠ b → lanes [3, 1, 4, 2] 0 a ≠ lanes [3, 1, 4, 2] 0 b) ∧
    (∀ i j, i < j → j < 4 →
      numeric_less (sort_key 4 (lanes [3, 1, 4, 2] 0) (fun _ a b => numeric_less b a) j)
        (sort_key 4 (lanes [3, 1, 4, 2] 0) (fun _ a b => numeric_less b a) i) = true) ∧
    (∀ i, i < 4 →
      sort_key 4 (lanes [3, 1, 4, 2] 0) (fun _ a b => numeric_less b a) i =
        sort_key 4 (lanes [3, 1, 4, 2] 0) (fun _ => numeric_less) (4 - 1 - i)) :=
  ⟨by decide, numeric_less_total, by decide,
    sort_key_inverse_descending 4 (by decide) numeric_less numeric_less_total
      (lanes [3, 1, 4, 2] 0) (by decide)⟩

/-- C6: with `WarpSize = 4` and the numeric `less`, `sort(key, value, less)` on keys
`[3,1,4,2]` with values `["c","a","d","b"]` leaves keys `[1,2,3,4]` and values
`["a","b","c","d"]` in lanes 0..3, in the large-payload overload the string
values select and in the direct overload alike. -/
theorem sort_concrete_scenario :
    (List.range 4).map (sort_large 4 (lanes [3, 1, 4, 2] 0) (lanes ["c", "a", "d", "b"] "")
      (fun _ => numeric_less)).1 = [1, 2, 3, 4] ∧
    (List.range 4).map (sort_large 4 (lanes [3, 1, 4, 2] 0) (lanes ["c", "a", "d", "b"] "")
      (fun _ => numeric_less)).2 = ["a", "b", "c", "d"] ∧
    (List.range 4).map (sort_small 4 (lanes [3, 1, 4, 2] 0) (lanes ["c", "a", "d", "b"] "")
      (fun _ => numeric_less)).1 = [1, 2, 3, 4] ∧
    (List.range 4).map (sort_small 4 (lanes [3, 1, 4, 2] 0) (lanes ["c", "a", "d", "b"] "")
      (fun _ => numeric_less)).2 = ["a", "b", "c", "d"] := by
  decide

/-- For every width in {2,4,8,16,32,64} the steps of the schedule with
`WarpSize > warp` number `log2 W * (log2 W + 1) / 2`. -/
theorem rounds_formula (WarpSize : Nat) (hW : WarpSize ∈ [2, 4, 8, 16, 32, 64]) :
    rounds WarpSize = Nat.log 2 WarpSize * (Nat.log 2 WarpSize + 1) / 2 ∧
    (WarpSize, rounds WarpSize) ∈ [(2, 1), (4, 3), (8, 6), (16, 10), (32, 15), (64, 21)] := by
  obtain ⟨n, h1, h6, rfl⟩ := width_cases hW
  rw [Nat.log_pow (by norm_num)]
  have hn : n = 1 ∨ n = 2 ∨ n = 3 ∨ n = 4 ∨ n = 5 ∨ n = 6 := by omega
  rcases hn with rfl | rfl | rfl | rfl | rfl | rfl <;> decide

/-- C9: at a two-lane input of a functor type whose call operator compares
numerically, the key/value entry with the storage handle leaves keys and
values untouched, while `sort(key, value, less)` on the same input sorts them. -/
theorem sort_storage_differs_from_sort :
    (List.range 2).map (sort_storage (fun _ a b => numeric_less a b) true 2
      (lanes [1, 0] 0) (lanes [5, 6] 0) (fun _ => ⟨⟩) (fun _ => 0)).1 = [1, 0] ∧
    (List.range 2).map (sort_storage (fun _ a b => numeric_less a b) true 2
      (lanes [1, 0] 0) (lanes [5, 6] 0) (fun _ => ⟨⟩) (fun _ => 0)).2 = [5, 6] ∧
    (List.range 2).map (sort_key_value true 2 (lanes [1, 0] 0) (lanes [5, 6] 0)
      (fun _ => numeric_less)).1 = [0, 1] ∧
    (List.range 2).map (sort_key_value true 2 (lanes [1, 0] 0) (lanes [5, 6] 0)
      (fun _ => numeric_less)).2 = [6, 5] := by
  decide

/-- C10: the key-only entry with the storage handle ignores the handle: for every
input and every storage argument it leaves every lane's key as
`sort(key, less)` does. -/
theorem sort_key_storage_ignores_storage {K : Type} (WarpSize : Nat) (key : Nat → K)
    (storage : Nat → storage_type) (compare_function : Nat → K → K → Bool) (lane : Nat) :
    sort_key_storage WarpSize key storage compare_function lane =
      sort_key WarpSize key compare_function lane :=
  rfl

/-! ## Parts of the schedule in closed form -/

theorem run_steps_key_schedule {K : Type} (WarpSize : Nat) (cmp : Nat → K → K → Bool)
    (k : Nat → K) : run_steps_key WarpSize cmp schedule k = bitonic_sort_key WarpSize cmp k :=
  rfl

theorem run_build_steps_eq {K : Type} (n t : Nat) (h1 : 1 ≤ t) (ht : t < n) (h6 : n ≤ 6)
    (cmp : Nat → K → K → Bool) (k : Nat → K) :
    run_steps_key (2 ^ n) cmp (build_steps t) k = build_key t cmp k := by
  have hn : n = 2 ∨ n = 3 ∨ n = 4 ∨ n = 5 ∨ n = 6 := by omega
  have ht' : t = 1 ∨ t = 2 ∨ t = 3 ∨ t = 4 ∨ t = 5 := by omega
  rcases hn with rfl | rfl | rfl | rfl | rfl <;>
    rcases ht' with rfl | rfl | rfl | rfl | rfl <;>
    first
    | omega
    | (simp only [run_steps_key, build_steps, schedule, List.take, List.foldl_cons,
        List.foldl_nil, logical_lane_id, build_key, cascade_key]
       simp (disch := decide) only [swap_key_active, swap_key_noop]
       rfl)

theorem run_final_steps_eq {K : Type} (n : Nat) (h1 : 1 ≤ n) (h6 : n ≤ 6)
    (cmp : Nat → K → K → Bool) (k : Nat → K) :
    run_steps_key (2 ^ n) cmp final_steps k =
      cascade_key n (fun j id => get_bit id j != 0) cmp k := by
  have hn : n = 1 ∨ n = 2 ∨ n = 3 ∨ n = 4 ∨ n = 5 ∨ n = 6 := by omega
  rcases hn with rfl | rfl | rfl | rfl | rfl | rfl <;>
    simp only [run_steps_key, final_steps, schedule, List.drop, List.foldl_cons,
      List.foldl_nil, logical_lane_id, cascade_key] <;>
    simp (disch := decide) only [swap_key_active, swap_key_noop] <;> rfl

/-! ## Sorted runs of general keys, through their zero-one images -/

theorem StrictWeakOrder.above_mono {K : Type} {less : K → K → Bool}
    (h : StrictWeakOrder less) (p a b : K) (hba : less b a = false)
    (hpa : less p a = true) : less p b = true := by
  cases hpb : less p b
  · have := h.neg_trans p b a hpb hba
    rw [hpa] at this
    exact absurd this (by simp)
  · rfl

theorem rising_threshold (y : Nat → Bool) (base m : Nat)
    (h : ∀ r r', r < r' → r' < m → y (base + r) = true → y (base + r') = true) :
    SortedOn false y base m := by
  induction m with
  | zero => exact ⟨0, by omega, fun r hr => by omega⟩
  | succ m ih =>
    obtain ⟨a, ha, hs⟩ := ih (fun r r' hrr hr' => h r r' hrr (by omega))
    by_cases hlt : a < m
    · refine ⟨a, by omega, fun r hr => ?_⟩
      by_cases hr' : r < m
      · exact hs r hr'
      · have hrm : r = m := by omega
        subst hrm
        have ha' := hs a hlt
        simp only [le_refl, decide_True, Bool.false_bne] at ha'
        have := h a r hlt (by omega) ha'
        rw [this]
        have : a ≤ r := by omega
        simp [this]
    · have ham : a = m := by omega
      subst ham
      by_cases hy : y (base + a) = true
      · refine ⟨a, by omega, fun r hr => ?_⟩
        by_cases hr' : r < a
        · exact hs r hr'
        · have hra : r = a := by omega
          subst hra
          simp [hy]
      · refine ⟨a + 1, by omega, fun r hr => ?_⟩
        by_cases hr' : r < a
        · rw [hs r hr']
          have h1 : ¬ a ≤ r := by omega
          have h2 : ¬ a + 1 ≤ r := by omega
          simp [h1, h2]
        · have hra : r = a := by omega
          subst hra
          simp only [Bool.not_eq_true] at hy
          simp [hy]

theorem falling_threshold (y : Nat → Bool) (base m : Nat)
    (h : ∀ r r', r < r' → r' < m → y (base + r') = true → y (base + r) = true) :
    SortedOn true y base m := by
  obtain ⟨a, ha, hs⟩ := rising_threshold (fun i => !y i) base m (fun r r' hrr hr' hy => by
    simp only [Bool.not_eq_true'] at hy ⊢
    cases hy' : y (base + r')
    · rfl
    · have := h r r' hrr hr' hy'
      rw [hy] at this
      exact absurd this (by simp))
  refine ⟨a, ha, fun r hr => ?_⟩
  have := hs r hr
  simp only [Bool.false_bne] at this
  rw [Bool.true_bne, ← this, Bool.not_not]

theorem bitonicOn_of_sorted_halves (t q : Nat) (x : Nat → Bool)
    (h0 : SortedOn false x (2 ^ t * (2 * q)) (2 ^ t))
    (h1 : SortedOn true x (2 ^ t * (2 * q + 1)) (2 ^ t)) :
    BitonicOn x (2 ^ (t + 1) * q) (2 ^ (t + 1)) := by
  have hm : 2 ^ (t + 1) = 2 * 2 ^ t := by rw [pow_succ]; ring
  have e0 : 2 ^ t * (2 * q) = 2 ^ (t + 1) * q := by rw [hm]; ring
  have e1 : ∀ r, 2 ^ t * (2 * q + 1) + r = 2 ^ (t + 1) * q + (2 ^ t + r) := by
    intro r; rw [hm]; ring
  obtain ⟨a1, ha1, s1⟩ := h0
  obtain ⟨a2, ha2, s2⟩ := h1
  rw [e0] at s1
  refine ⟨a1, 2 ^ t + a2, false, by omega, by omega, fun r hr => ?_⟩
  by_cases hr' : r < 2 ^ t
  · rw [s1 r hr', Bool.eq_iff_iff]
    simp
    omega
  · have hr2 : r = 2 ^ t + (r - 2 ^ t) := by omega
    have := s2 (r - 2 ^ t) (by omega)
    rw [e1, ← hr2] at this
    rw [this, Bool.eq_iff_iff]
    simp
    omega

/-- After the build cascades for run lengths up to `2 ^ t`, the aligned block
`q` of `2 ^ t` lanes is a sorted run of general keys: non-descending for even
`q`, non-ascending for odd `q`. -/
theorem build_key_run_sorted {K : Type} (less : K → K → Bool) (hless : StrictWeakOrder less)
    (t : Nat) (key : Nat → K) (q r r' : Nat) (hrr : r < r') (hr' : r' < 2 ^ t) :
    if Nat.testBit q 0 then
      less (build_key t (fun _ => less) key (2 ^ t * q + r))
        (build_key t (fun _ => less) key (2 ^ t * q + r')) = false
    else
      less (build_key t (fun _ => less) key (2 ^ t * q + r'))
        (build_key t (fun _ => less) key (2 ^ t * q + r)) = false := by
  cases hq : Nat.testBit q 0
  · simp only [Bool.false_eq_true, if_false]
    cases hc : less (build_key t (fun _ => less) key (2 ^ t * q + r'))
      (build_key t (fun _ => less) key (2 ^ t * q + r))
    · rfl
    · exfalso
      have hmap := build_key_map less
        (fun z => less (build_key t (fun _ => less) key (2 ^ t * q + r')) z)
        hless.asymm (fun a b hba hpa => hless.above_mono _ a b hba hpa) t key
      obtain ⟨a, _, hs⟩ := build_key_altSorted t
        (fun i => less (build_key t (fun _ => less) key (2 ^ t * q + r')) (key i)) q
      rw [← hmap, hq] at hs
      have h1 := hs r (by omega)
      have h2 := hs r' hr'
      simp only [hc, hless.irrefl] at h1 h2
      simp at h1 h2
      omega
  · simp only [if_true]
    cases hc : less (build_key t (fun _ => less) key (2 ^ t * q + r))
      (build_key t (fun _ => less) key (2 ^ t * q + r'))
    · rfl
    · exfalso
      have hmap := build_key_map less
        (fun z => less (build_key t (fun _ => less) key (2 ^ t * q + r)) z)
        hless.asymm (fun a b hba hpa => hless.above_mono _ a b hba hpa) t key
      obtain ⟨a, _, hs⟩ := build_key_altSorted t
        (fun i => less (build_key t (fun _ => less) key (2 ^ t * q + r)) (key i)) q
      rw [← hmap, hq] at hs
      have h1 := hs r (by omega)
      have h2 := hs r' hr'
      simp only [hc, hless.irrefl] at h1 h2
      simp at h1 h2
      omega

/-- The final cascade of `n` steps sorts `2 ^ n` lanes of general keys whose
lower half is non-descending and whose upper half is non-ascending. -/
theorem final_cascade_sorted {K : Type} (less : K → K → Bool) (hless : StrictWeakOrder less)
    (n : Nat) (hn : 1 ≤ n) (x : Nat → K)
    (hlow : ∀ i j, i < j → j < 2 ^ n / 2 → less (x j) (x i) = false)
    (hhigh : ∀ i j, 2 ^ n / 2 ≤ i → i < j → j < 2 ^ n → less (x i) (x j) = false)
    (i j : Nat) (hij : i < j) (hj : j < 2 ^ n) :
    less (cascade_key n (fun j id => get_bit id j != 0) (fun _ => less) x j)
      (cascade_key n (fun j id => get_bit id j != 0) (fun _ => less) x i) = false := by
  obtain ⟨t, rfl⟩ : ∃ t, n = t + 1 := ⟨n - 1, by omega⟩
  have hm : 2 ^ (t + 1) = 2 * 2 ^ t := by rw [pow_succ]; ring
  have hhalf : 2 ^ (t + 1) / 2 = 2 ^ t := by rw [hm]; omega
  rw [hhalf] at hlow hhigh
  cases hc : less (cascade_key (t + 1) (fun j id => get_bit id j != 0) (fun _ => less) x j)
    (cascade_key (t + 1) (fun j id => get_bit id j != 0) (fun _ => less) x i)
  · rfl
  · exfalso
    have hf : ∀ a b, less b a = false →
        less (cascade_key (t + 1) (fun j id => get_bit id j != 0) (fun _ => less) x j) a = true →
        less (cascade_key (t + 1) (fun j id => get_bit id j != 0) (fun _ => less) x j) b = true :=
      fun a b hba hpa => hless.above_mono _ a b hba hpa
    have hmap := cascade_key_map less
      (fun z => less (cascade_key (t + 1) (fun j id => get_bit id j != 0) (fun _ => less) x j) z)
      hless.asymm hf (t + 1) (fun j id => get_bit id j != 0) x
    have b0 : BitonicOn (fun i => less
        (cascade_key (t + 1) (fun j id => get_bit id j != 0) (fun _ => less) x j) (x i))
        (2 ^ (t + 1) * 0) (2 ^ (t + 1)) := by
      refine bitonicOn_of_sorted_halves t 0 _ ?_ ?_
      · refine rising_threshold _ _ _ (fun r r' hrr hr' hy => ?_)
        simp only [Nat.mul_zero, Nat.zero_add] at hy ⊢
        exact hf _ _ (hlow r r' hrr hr') hy
      · refine falling_threshold _ _ _ (fun r r' hrr hr' hy => ?_)
        simp only [Nat.mul_zero, Nat.zero_add, Nat.mul_one] at hy ⊢
        exact hf _ _ (hhigh (2 ^ t + r) (2 ^ t + r') (by omega) (by omega) (by omega)) hy
    obtain ⟨a, _, hs⟩ := (cascade_sorts (t + 1) 0 false (fun j id => get_bit id j != 0) _
      (fun j _ r _ => by simp [get_bit_ne_zero]) b0).1
    rw [← hmap] at hs
    have h1 := hs i (by omega)
    have h2 := hs j hj
    simp only [Nat.mul_zero, Nat.zero_add, hc, hless.irrefl] at h1 h2
    simp at h1 h2
    omega

/-! ## Facts about the executed steps -/

theorem mem_executed_steps {WarpSize : Nat} {s : Step} (hs : s ∈ executed_steps WarpSize) :
    s ∈ schedule ∧ WarpSize > s.warp := by
  unfold executed_steps at hs
  rw [List.mem_filter] at hs
  exact ⟨hs.1, by simpa using hs.2⟩

theorem executed_partner_lt {WarpSize : Nat} (hW : WarpSize ∈ [2, 4, 8, 16, 32, 64])
    {s : Step} (hs : s ∈ executed_steps WarpSize) (id : Nat) (hid : id < WarpSize) :
    id ^^^ s.mask < WarpSize := by
  obtain ⟨n, h1, _, hn⟩ := width_cases hW
  obtain ⟨hmem, hw⟩ := mem_executed_steps hs
  have h2 : 2 ≤ WarpSize := by
    rw [hn]
    calc 2 = 2 ^ 1 := by norm_num
      _ ≤ 2 ^ n := Nat.pow_le_pow_right (by norm_num) h1
  have hmask : s.mask < WarpSize := by
    rcases schedule_masks s hmem with h | h <;> omega
  rw [hn] at hmask hid ⊢
  exact (xor_lt_iff hmask).2 hid

theorem schedule_dir_local (n : Nat) (h1 : 1 ≤ n) (h6 : n ≤ 6) :
    ∀ s ∈ schedule, 2 ^ n > s.warp → ∀ id, s.dir (id % 2 ^ n) = s.dir id := by
  intro s hs hw id
  have hn : n = 1 ∨ n = 2 ∨ n = 3 ∨ n = 4 ∨ n = 5 ∨ n = 6 := by omega
  simp only [schedule, List.mem_cons, List.mem_singleton, List.not_mem_nil, or_false] at hs
  rcases hn with rfl | rfl | rfl | rfl | rfl | rfl <;>
    rcases hs with h | h | h | h | h | h | h | h | h | h | h | h | h | h | h | h | h | h | h | h | h <;>
    subst h <;>
    first
    | (exfalso; revert hw; decide)
    | (simp only [get_bit_ne_get_bit, get_bit_ne_zero, Nat.testBit_mod_two_pow]; simp)

theorem executed_masks (WarpSize : Nat) (hW : WarpSize ∈ [2, 4, 8, 16, 32, 64]) :
    ∀ s ∈ executed_steps WarpSize,
      (∃ j, j < 6 ∧ s.mask = 2 ^ j) ∧ 1 ≤ s.mask ∧ s.mask ≤ WarpSize / 2 := by
  simp only [List.mem_cons, List.mem_singleton, List.not_mem_nil, or_false] at hW
  rcases hW with rfl | rfl | rfl | rfl | rfl | rfl <;> decide

/-! ## The claims on single steps, build and final phases -/

/-- C11: one compare-exchange step between the lanes `a` and `a XOR mask` that run
it with complementary flags (false on `a`, true on the partner) under a strict
weak ordering: every lane adopts the partner's key and value exactly when
`less(flag ? k : k1, flag ? k1 : k)`; the two lanes keep their two pairs
between them, and the key of the flag-true lane is not less than the key of
the flag-false lane.  The key-only overload leaves the same keys. -/
theorem compare_exchange_pair {K V : Type} (WarpSize warp : Nat) (hw : WarpSize > warp)
    (less : K → K → Bool) (hless : StrictWeakOrder less) (k : Nat → K) (v : Nat → V)
    (mask : Nat) (dir : Nat → Bool) (a : Nat)
    (ha : dir a = false) (hb : dir (a ^^^ mask) = true) :
    (∀ id, ((swap WarpSize warp k v mask dir (fun _ => less)).1 id,
        (swap WarpSize warp k v mask dir (fun _ => less)).2 id) =
      if less (if dir id then k id else k (id ^^^ mask))
          (if dir id then k (id ^^^ mask) else k id)
      then (k (id ^^^ mask), v (id ^^^ mask)) else (k id, v id)) ∧
    ((((swap WarpSize warp k v mask dir (fun _ => less)).1 a,
          (swap WarpSize warp k v mask dir (fun _ => less)).2 a) = (k a, v a) ∧
        ((swap WarpSize warp k v mask dir (fun _ => less)).1 (a ^^^ mask),
          (swap WarpSize warp k v mask dir (fun _ => less)).2 (a ^^^ mask)) =
          (k (a ^^^ mask), v (a ^^^ mask))) ∨
      (((swap WarpSize warp k v mask dir (fun _ => less)).1 a,
          (swap WarpSize warp k v mask dir (fun _ => less)).2 a) =
          (k (a ^^^ mask), v (a ^^^ mask)) ∧
        ((swap WarpSize warp k v mask dir (fun _ => less)).1 (a ^^^ mask),
          (swap WarpSize warp k v mask dir (fun _ => less)).2 (a ^^^ mask)) = (k a, v a))) ∧
    less ((swap WarpSize warp k v mask dir (fun _ => less)).1 (a ^^^ mask))
      ((swap WarpSize warp k v mask dir (fun _ => less)).1 a) = false ∧
    (∀ id, swap_key WarpSize warp k mask dir (fun _ => less) id =
      (swap WarpSize warp k v mask dir (fun _ => less)).1 id) := by
  have hx : (a ^^^ mask) ^^^ mask = a := by
    rw [Nat.xor_assoc, Nat.xor_self, Nat.xor_zero]
  have hrule : ∀ id, ((swap WarpSize warp k v mask dir (fun _ => less)).1 id,
        (swap WarpSize warp k v mask dir (fun _ => less)).2 id) =
      if less (if dir id then k id else k (id ^^^ mask))
          (if dir id then k (id ^^^ mask) else k id)
      then (k (id ^^^ mask), v (id ^^^ mask)) else (k id, v id) := by
    intro id
    simp only [swap, hw, if_true, warp_shuffle_xor]
    split <;> split <;> rfl
  refine ⟨hrule, ?_, ?_, fun id => by rw [swap_fst]⟩
  · rw [hrule a, hrule (a ^^^ mask), hx]
    simp only [ha, hb, if_true, Bool.false_eq_true, if_false]
    cases less (k (a ^^^ mask)) (k a) <;> simp
  · have h1 := congrArg Prod.fst (hrule a)
    have h2 := congrArg Prod.fst (hrule (a ^^^ mask))
    simp only at h1 h2
    rw [h1, h2, hx]
    simp only [ha, hb, if_true, Bool.false_eq_true, if_false]
    cases hc : less (k (a ^^^ mask)) (k a)
    · simpa using hc
    · simpa using hless.asymm _ _ hc

theorem compare_exchange_pair_witness :
    2 > 0 ∧ StrictWeakOrder half_less ∧
    (fun id => decide (id = 1)) 0 = false ∧ (fun id => decide (id = 1)) (0 ^^^ 1) = true ∧
    half_less ((swap 2 0 (lanes [5, 3] 0) (lanes ["x", "y"] "") 1
        (fun id => decide (id = 1)) (fun _ => half_less)).1 (0 ^^^ 1))
      ((swap 2 0 (lanes [5, 3] 0) (lanes ["x", "y"] "") 1
        (fun id => decide (id = 1)) (fun _ => half_less)).1 0) = false :=
  ⟨by decide, half_less_weak, by decide, by decide,
    (compare_exchange_pair 2 0 (by decide) half_less half_less_weak (lanes [5, 3] 0)
      (lanes ["x", "y"] "") 1 (fun id => decide (id = 1)) 0 (by decide) (by decide)).2.2.1⟩

/-- C12: for every width in {2,4,8,16,32,64}, every executed step and every lane
`id` of the group, the partner `id XOR mask` is a lane of the group and the
step's direction flag for `id` is the negation of its flag for the partner. -/
theorem executed_flags_complementary (WarpSize : Nat)
    (hW : WarpSize ∈ [2, 4, 8, 16, 32, 64]) (s : Step) (hs : s ∈ executed_steps WarpSize)
    (id : Nat) (hid : id < WarpSize) :
    id ^^^ s.mask < WarpSize ∧
    s.dir (logical_lane_id WarpSize id) =
      !s.dir (logical_lane_id WarpSize (id ^^^ s.mask)) := by
  refine ⟨executed_partner_lt hW hs id hid, ?_⟩
  have h := schedule_dirs s (mem_executed_steps hs).1 id
  simp only [logical_lane_id]
  rw [h, Bool.not_not]

theorem executed_flags_complementary_witness :
    4 ∈ [2, 4, 8, 16, 32, 64] ∧
    (⟨2, 1, fun id => get_bit id 1 != get_bit id 0⟩ : Step) ∈ executed_steps 4 ∧ 3 < 4 ∧
    (3 ^^^ 1 < 4 ∧
      (get_bit (logical_lane_id 4 3) 1 != get_bit (logical_lane_id 4 3) 0) =
        !(get_bit (logical_lane_id 4 (3 ^^^ 1)) 1 != get_bit (logical_lane_id 4 (3 ^^^ 1)) 0)) :=
  ⟨by decide, List.mem_filter.2 ⟨List.mem_cons_self _ _, by decide⟩, by decide,
    executed_flags_complementary 4 (by decide) ⟨2, 1, fun id => get_bit id 1 != get_bit id 0⟩
      (List.mem_filter.2 ⟨List.mem_cons_self _ _, by decide⟩) 3 (by decide)⟩

theorem lt_of_two_mul_pow_le {t n : Nat} (h : 2 * 2 ^ t ≤ 2 ^ n) : t < n := by
  by_contra hc
  have h1 : 2 ^ n ≤ 2 ^ t := Nat.pow_le_pow_right (by norm_num) (by omega)
  have h2 : 0 < 2 ^ t := Nat.pos_pow_of_pos t (by norm_num)
  omega

/-- C13: for every width in {4,8,16,32,64}, every strict weak ordering, every
input and every run length `L = 2 ^ t` in {2,...,W/2}: the build cascades for
run lengths 2..L are the first `t (t + 1) / 2` calls of the schedule, with
masks `L/2 ... 1` and flag `get_bit(id, log2 L) != get_bit(id, log2 mask)`;
after them every aligned block of `L` lanes is a sorted run, non-descending
when bit `log2 L` of its lane ids is 0 and non-ascending when it is 1; and for
`L = W/2` lanes `[0, W/2)` are non-descending and lanes `[W/2, W)` non-ascending. -/
theorem build_phase_invariant {K : Type} (WarpSize : Nat)
    (hW : WarpSize ∈ [4, 8, 16, 32, 64]) (less : K → K → Bool)
    (hless : StrictWeakOrder less) (key : Nat → K) (t : Nat) (ht1 : 1 ≤ t)
    (htW : 2 * 2 ^ t ≤ WarpSize) :
    run_steps_key WarpSize (fun _ => less) (build_steps t) key =
      build_key t (fun _ => less) key ∧
    (∀ i j, i < j → j < WarpSize → i / 2 ^ t = j / 2 ^ t →
      if get_bit i t = 0 then
        less (run_steps_key WarpSize (fun _ => less) (build_steps t) key j)
          (run_steps_key WarpSize (fun _ => less) (build_steps t) key i) = false
      else
        less (run_steps_key WarpSize (fun _ => less) (build_steps t) key i)
          (run_steps_key WarpSize (fun _ => less) (build_steps t) key j) = false) ∧
    (2 * 2 ^ t = WarpSize →
      (∀ i j, i < j → j < WarpSize / 2 →
        less (run_steps_key WarpSize (fun _ => less) (build_steps t) key j)
          (run_steps_key WarpSize (fun _ => less) (build_steps t) key i) = false) ∧
      (∀ i j, WarpSize / 2 ≤ i → i < j → j < WarpSize →
        less (run_steps_key WarpSize (fun _ => less) (build_steps t) key i)
          (run_steps_key WarpSize (fun _ => less) (build_steps t) key j) = false)) := by
  have hW' : WarpSize ∈ [2, 4, 8, 16, 32, 64] := List.mem_cons_of_mem _ hW
  obtain ⟨n, _, h6, rfl⟩ := width_cases hW'
  have htn : t < n := lt_of_two_mul_pow_le htW
  have hrun := run_build_steps_eq n t ht1 htn h6 (fun _ => less) key
  have hpos : 0 < 2 ^ t := Nat.pos_pow_of_pos t (by norm_num)
  have hblock : ∀ i j, i < j → i / 2 ^ t = j / 2 ^ t →
      if get_bit i t = 0 then
        less (build_key t (fun _ => less) key j) (build_key t (fun _ => less) key i) = false
      else
        less (build_key t (fun _ => less) key i) (build_key t (fun _ => less) key j) = false := by
    intro i j hij hq
    have ei : 2 ^ t * (i / 2 ^ t) + i % 2 ^ t = i := Nat.div_add_mod i (2 ^ t)
    have ej : 2 ^ t * (i / 2 ^ t) + j % 2 ^ t = j := by rw [hq]; exact Nat.div_add_mod j (2 ^ t)
    have hri : i % 2 ^ t < 2 ^ t := Nat.mod_lt _ hpos
    have hrj : j % 2 ^ t < 2 ^ t := Nat.mod_lt _ hpos
    have hrr : i % 2 ^ t < j % 2 ^ t := by omega
    have hbit : get_bit i t = (Nat.testBit (i / 2 ^ t) 0).toNat := by
      rw [get_bit_eq]
      conv_lhs => rw [← ei]
      rw [testBit_block_top t _ _ hri]
    have h := build_key_run_sorted less hless t key (i / 2 ^ t) (i % 2 ^ t) (j % 2 ^ t) hrr hrj
    rw [ei, ej] at h
    rw [hbit]
    cases hb : Nat.testBit (i / 2 ^ t) 0
    · simpa [hb] using h
    · simpa [hb] using h
  rw [hrun]
  refine ⟨rfl, fun i j hij _ hq => hblock i j hij hq, fun hL => ?_⟩
  have hhalf : 2 ^ n / 2 = 2 ^ t := by omega
  rw [hhalf]
  refine ⟨fun i j hij hj => ?_, fun i j hi hij hj => ?_⟩
  · have hqi : i / 2 ^ t = 0 := Nat.div_eq_of_lt (by omega)
    have hqj : j / 2 ^ t = 0 := Nat.div_eq_of_lt hj
    have h := hblock i j hij (by rw [hqi, hqj])
    have hbit : get_bit i t = 0 := by
      rw [get_bit_eq, Nat.testBit_lt_two_pow (by omega)]
      rfl
    simpa [hbit] using h
  · have hqi : i / 2 ^ t = 1 := by
      apply Nat.div_eq_of_lt_le <;> omega
    have hqj : j / 2 ^ t = 1 := by
      apply Nat.div_eq_of_lt_le <;> omega
    have h := hblock i j hij (by rw [hqi, hqj])
    have ei : 2 ^ t * 1 + i % 2 ^ t = i := by
      have := Nat.div_add_mod i (2 ^ t)
      rwa [hqi] at this
    have hbit : get_bit i t = 1 := by
      rw [get_bit_eq]
      conv_lhs => rw [← ei]
      rw [testBit_block_top t 1 _ (Nat.mod_lt _ hpos)]
      rfl
    simpa [hbit] using h

theorem build_phase_invariant_witness :
    8 ∈ [4, 8, 16, 32, 64] ∧ StrictWeakOrder half_less ∧ 1 ≤ 1 ∧ 2 * 2 ^ 1 ≤ 8 ∧
    (∀ i j, i < j → j < 8 → i / 2 ^ 1 = j / 2 ^ 1 →
      if get_bit i 1 = 0 then
        half_less
          (run_steps_key 8 (fun _ => half_less) (build_steps 1) (lanes [5, 3, 2, 3, 7, 0, 1, 6] 0) j)
          (run_steps_key 8 (fun _ => half_less) (build_steps 1) (lanes [5, 3, 2, 3, 7, 0, 1, 6] 0) i)
          = false
      else
        half_less
          (run_steps_key 8 (fun _ => half_less) (build_steps 1) (lanes [5, 3, 2, 3, 7, 0, 1, 6] 0) i)
          (run_steps_key 8 (fun _ => half_less) (build_steps 1) (lanes [5, 3, 2, 3, 7, 0, 1, 6] 0) j)
          = false) :=
  ⟨by decide, half_less_weak, by decide, by decide,
    (build_phase_invariant 8 (by decide) half_less half_less_weak
      (lanes [5, 3, 2, 3, 7, 0, 1, 6] 0) 1 (by decide) (by decide)).2.1⟩

/-- C14: for every width in {2,4,8,16,32,64}, every strict weak ordering and every
lane state whose lanes `[0, W/2)` are non-descending and lanes `[W/2, W)`
non-ascending, the final cascade alone (source lines 126-131, gated by the
width, so the executed masks are `W/2, ..., 2, 1`) leaves the lanes sorted: no
later lane holds a key less than an earlier lane's key. -/
theorem final_collapse_sorts {K : Type} (WarpSize : Nat)
    (hW : WarpSize ∈ [2, 4, 8, 16, 32, 64]) (less : K → K → Bool)
    (hless : StrictWeakOrder less) (x : Nat → K)
    (hlow : ∀ i j, i < j → j < WarpSize / 2 → less (x j) (x i) = false)
    (hhigh : ∀ i j, WarpSize / 2 ≤ i → i < j → j < WarpSize → less (x i) (x j) = false)
    (i j : Nat) (hij : i < j) (hj : j < WarpSize) :
    less (run_steps_key WarpSize (fun _ => less) final_steps x j)
      (run_steps_key WarpSize (fun _ => less) final_steps x i) = false ∧
    (final_steps.filter (fun s => decide (WarpSize > s.warp))).map (fun s => s.mask) =
      ((List.range (Nat.log 2 WarpSize)).map (fun b => 2 ^ b)).reverse := by
  obtain ⟨n, h1, h6, rfl⟩ := width_cases hW
  refine ⟨?_, ?_⟩
  · rw [run_final_steps_eq n h1 h6]
    exact final_cascade_sorted less hless n h1 x hlow hhigh i j hij hj
  · rw [Nat.log_pow (by norm_num)]
    have hn : n = 1 ∨ n = 2 ∨ n = 3 ∨ n = 4 ∨ n = 5 ∨ n = 6 := by omega
    rcases hn with rfl | rfl | rfl | rfl | rfl | rfl <;> decide

theorem final_collapse_sorts_witness :
    4 ∈ [2, 4, 8, 16, 32, 64] ∧ StrictWeakOrder numeric_less ∧
    (∀ i j, i < j → j < 4 / 2 →
      numeric_less (lanes [1, 4, 3, 2] 0 j) (lanes [1, 4, 3, 2] 0 i) = false) ∧
    (∀ i j, 4 / 2 ≤ i → i < j → j < 4 →
      numeric_less (lanes [1, 4, 3, 2] 0 i) (lanes [1, 4, 3, 2] 0 j) = false) ∧
    numeric_less (run_steps_key 4 (fun _ => numeric_less) final_steps (lanes [1, 4, 3, 2] 0) 2)
      (run_steps_key 4 (fun _ => numeric_less) final_steps (lanes [1, 4, 3, 2] 0) 1) = false :=
  have hlow : ∀ i j, i < j → j < 4 / 2 →
      numeric_less (lanes [1, 4, 3, 2] 0 j) (lanes [1, 4, 3, 2] 0 i) = false := by
    intro i j hij hj
    have hj' : j = 1 := by omega
    have hi' : i = 0 := by omega
    subst hj'; subst hi'; decide
  have hhigh : ∀ i j, 4 / 2 ≤ i → i < j → j < 4 →
      numeric_less (lanes [1, 4, 3, 2] 0 i) (lanes [1, 4, 3, 2] 0 j) = false := by
    intro i j hi hij hj
    have hj' : j = 3 := by omega
    have hi' : i = 2 := by omega
    subst hj'; subst hi'; decide
  ⟨by decide, numeric_less_total.toWeak, hlow, hhigh,
    (final_collapse_sorts 4 (by decide) numeric_less numeric_less_total.toWeak
      (lanes [1, 4, 3, 2] 0) hlow hhigh 1 2 (by decide) (by decide)).1⟩

/-- C15: a `swap` step with stage threshold `T` leaves key and value unchanged
whenever `WarpSize <= T`; and for every width in {2,4,8,16,32,64} every
executed step has a power-of-two mask with `1 <= mask <= W/2`, a flag that
only depends on the id bits below `log2 W`, and keeps every partner
`id XOR mask` of a lane of the group inside the group. -/
theorem stage_gating (WarpSize : Nat) :
    (∀ (K V : Type) (T : Nat) (k : Nat → K) (v : Nat → V) (mask : Nat) (dir : Nat → Bool)
        (cmp : Nat → K → K → Bool), WarpSize ≤ T →
      swap WarpSize T k v mask dir cmp = (k, v) ∧ swap_key WarpSize T k mask dir cmp = k) ∧
    (WarpSize ∈ [2, 4, 8, 16, 32, 64] → ∀ s ∈ executed_steps WarpSize,
      (∃ j, s.mask = 2 ^ j) ∧ 1 ≤ s.mask ∧ s.mask ≤ WarpSize / 2 ∧
      (∀ id id', (∀ b, b < Nat.log 2 WarpSize → get_bit id b = get_bit id' b) →
        s.dir id = s.dir id') ∧
      (∀ id, id < WarpSize → id ^^^ s.mask < WarpSize)) := by
  refine ⟨fun K V T k v mask dir cmp hT => ?_, fun hW s hs => ?_⟩
  · have h : ¬ WarpSize > T := by omega
    simp [swap, swap_key, h]
  · obtain ⟨⟨j, _, hj⟩, hm1, hm2⟩ := executed_masks WarpSize hW s hs
    refine ⟨⟨j, hj⟩, hm1, hm2, fun id id' hbits => ?_,
      fun id hid => executed_partner_lt hW hs id hid⟩
    obtain ⟨n, h1, h6, rfl⟩ := width_cases hW
    obtain ⟨hmem, hw⟩ := mem_executed_steps hs
    rw [Nat.log_pow (by norm_num)] at hbits
    have hmod : id % 2 ^ n = id' % 2 ^ n := by
      apply Nat.eq_of_testBit_eq
      intro b
      rw [Nat.testBit_mod_two_pow, Nat.testBit_mod_two_pow]
      by_cases hb : b < n
      · have := hbits b hb
        rw [get_bit_eq, get_bit_eq] at this
        simp only [hb, decide_True, Bool.true_and]
        revert this
        cases id.testBit b <;> cases id'.testBit b <;> simp
      · simp [hb]
    rw [← schedule_dir_local n h1 h6 s hmem hw id, ← schedule_dir_local n h1 h6 s hmem hw id',
      hmod]

theorem stage_gating_witness :
    (swap 4 4 (lanes [3, 1, 4, 2] 0) (lanes ["c", "a", "d", "b"] "") 2
        (fun id => get_bit id 2 != get_bit id 1) (fun _ => numeric_less) =
      (lanes [3, 1, 4, 2] 0, lanes ["c", "a", "d", "b"] "")) ∧
    ((∃ j, (⟨2, 1, fun id => get_bit id 1 != get_bit id 0⟩ : Step).mask = 2 ^ j) ∧
      ∀ id, id < 4 → id ^^^ (⟨2, 1, fun id => get_bit id 1 != get_bit id 0⟩ : Step).mask < 4) :=
  ⟨((stage_gating 4).1 Nat String 4 (lanes [3, 1, 4, 2] 0) (lanes ["c", "a", "d", "b"] "") 2
      (fun id => get_bit id 2 != get_bit id 1) (fun _ => numeric_less) (by decide)).1,
    ((stage_gating 4).2 (by decide) ⟨2, 1, fun id => get_bit id 1 != get_bit id 0⟩
      (List.mem_filter.2 ⟨List.mem_cons_self _ _, by decide⟩)).1,
    ((stage_gating 4).2 (by decide) ⟨2, 1, fun id => get_bit id 1 != get_bit id 0⟩
      (List.mem_filter.2 ⟨List.mem_cons_self _ _, by decide⟩)).2.2.2.2⟩

/-! ## The claims on payload, stability and key conservation -/

/-- C16: in the large-payload strategy, for every width in {2,4,8,16,32,64}, every
comparator and every input, after the network has run on (key, lane id) the
index held by each lane is a lane id below `W`, the indices are pairwise
distinct (a permutation of the lanes), the key of lane `i` is the key lane
`v(i)` supplied, and the gather gives lane `i` the value lane `v(i)` supplied. -/
theorem sort_large_indices {K V : Type} (WarpSize : Nat)
    (hW : WarpSize ∈ [2, 4, 8, 16, 32, 64]) (less : K → K → Bool)
    (key : Nat → K) (value : Nat → V) :
    (∀ i, i < WarpSize →
      (bitonic_sort WarpSize (fun _ => less) (key, logical_lane_id WarpSize)).2 i < WarpSize) ∧
    (∀ i, i < WarpSize → ∀ j, j < WarpSize → i ≠ j →
      (bitonic_sort WarpSize (fun _ => less) (key, logical_lane_id WarpSize)).2 i ≠
        (bitonic_sort WarpSize (fun _ => less) (key, logical_lane_id WarpSize)).2 j) ∧
    (∃ s : Equiv.Perm (Fin WarpSize), ∀ i : Fin WarpSize,
      (bitonic_sort WarpSize (fun _ => less) (key, logical_lane_id WarpSize)).2 i = s i) ∧
    (∀ i, i < WarpSize →
      (bitonic_sort WarpSize (fun _ => less) (key, logical_lane_id WarpSize)).1 i =
        key ((bitonic_sort WarpSize (fun _ => less) (key, logical_lane_id WarpSize)).2 i)) ∧
    (∀ i, i < WarpSize →
      (sort_large WarpSize key value (fun _ => less)).1 i =
        key ((bitonic_sort WarpSize (fun _ => less) (key, logical_lane_id WarpSize)).2 i) ∧
      (sort_large WarpSize key value (fun _ => less)).2 i =
        value ((bitonic_sort WarpSize (fun _ => less) (key, logical_lane_id WarpSize)).2 i)) := by
  obtain ⟨σ, hσ, e⟩ := bitonic_sort_perm WarpSize hW less key (logical_lane_id WarpSize)
  obtain ⟨τ, hτ⟩ := fin_perm_of_nat_perm WarpSize σ hσ
  have e2 : (bitonic_sort WarpSize (fun _ => less) (key, logical_lane_id WarpSize)).2 =
      fun i => σ i := by rw [e]; rfl
  have e1 : (bitonic_sort WarpSize (fun _ => less) (key, logical_lane_id WarpSize)).1 =
      fun i => key (σ i) := by rw [e]
  refine ⟨fun i hi => ?_, fun i _ j _ hij => ?_, ⟨τ, fun i => ?_⟩, fun i _ => ?_,
    fun i _ => ⟨?_, ?_⟩⟩
  · rw [e2]; exact (hσ i).2 hi
  · rw [e2]; exact fun h => hij (σ.injective h)
  · rw [e2, hτ i]
  · rw [e1, e2]
  · simp only [sort_large]
    rw [e1, e2]
  · simp only [sort_large, warp_shuffle]

theorem sort_large_indices_witness :
    4 ∈ [2, 4, 8, 16, 32, 64] ∧
    (∀ i, i < 4 →
      (bitonic_sort 4 (fun _ => numeric_less)
        (lanes [2, 0, 1, 1] 0, logical_lane_id 4)).2 i < 4) :=
  ⟨by decide, (sort_large_indices 4 (by decide) numeric_less (lanes [2, 0, 1, 1] 0)
    (lanes ["p", "q", "r", "s"] "")).1⟩

/-- C17: the sort is not stable.  With `WarpSize = 4` and the numeric `less`, keys
`[2,0,1,1]` with values `[p,q,r,s]` come out as keys `[0,1,1,2]` and values
`[q,s,r,p]` in both key/value overloads: lanes 2 and 3 supplied the equal
keys, and the value `s` of lane 3 ends in lane 1, before the value `r` of lane 2. -/
theorem sort_not_stable :
    (List.range 4).map (sort_small 4 (lanes [2, 0, 1, 1] 0) (lanes ["p", "q", "r", "s"] "")
      (fun _ => numeric_less)).1 = [0, 1, 1, 2] ∧
    (List.range 4).map (sort_small 4 (lanes [2, 0, 1, 1] 0) (lanes ["p", "q", "r", "s"] "")
      (fun _ => numeric_less)).2 = ["q", "s", "r", "p"] ∧
    (List.range 4).map (sort_large 4 (lanes [2, 0, 1, 1] 0) (lanes ["p", "q", "r", "s"] "")
      (fun _ => numeric_less)).1 = [0, 1, 1, 2] ∧
    (List.range 4).map (sort_large 4 (lanes [2, 0, 1, 1] 0) (lanes ["p", "q", "r", "s"] "")
      (fun _ => numeric_less)).2 = ["q", "s", "r", "p"] ∧
    lanes [2, 0, 1, 1] 0 2 = lanes [2, 0, 1, 1] 0 3 ∧
    (sort_small 4 (lanes [2, 0, 1, 1] 0) (lanes ["p", "q", "r", "s"] "")
      (fun _ => numeric_less)).2 1 = lanes ["p", "q", "r", "s"] "" 3 ∧
    (sort_small 4 (lanes [2, 0, 1, 1] 0) (lanes ["p", "q", "r", "s"] "")
      (fun _ => numeric_less)).2 2 = lanes ["p", "q", "r", "s"] "" 2 := by
  decide

/-- C18: the network never loses or duplicates a key, whatever the comparator: for
every width in {2,4,8,16,32,64}, every input and every binary predicate, the
keys after `sort(key, compare_function)` are the supplied keys permuted, and in
every executed step the two lanes of a pair evaluate the same comparison. -/
theorem sort_key_conserves_keys {K : Type} (WarpSize : Nat)
    (hW : WarpSize ∈ [2, 4, 8, 16, 32, 64]) (compare_function : K → K → Bool)
    (key : Nat → K) :
    (∃ s : Equiv.Perm (Fin WarpSize), ∀ i : Fin WarpSize,
      sort_key WarpSize key (fun _ => compare_function) i = key (s i)) ∧
    List.Perm (List.ofFn (fun i : Fin WarpSize => sort_key WarpSize key (fun _ => compare_function) i))
      (List.ofFn (fun i : Fin WarpSize => key i)) ∧
    (∀ s ∈ executed_steps WarpSize, ∀ (k : Nat → K) (id : Nat),
      compare_function (if s.dir id then k id else k (id ^^^ s.mask))
          (if s.dir id then k (id ^^^ s.mask) else k id) =
        compare_function
          (if s.dir (id ^^^ s.mask) then k (id ^^^ s.mask) else k (id ^^^ s.mask ^^^ s.mask))
          (if s.dir (id ^^^ s.mask) then k (id ^^^ s.mask ^^^ s.mask) else k (id ^^^ s.mask))) := by
  obtain ⟨σ, hσ, e⟩ := sort_key_perm WarpSize hW compare_function key
  obtain ⟨τ, hτ⟩ := fin_perm_of_nat_perm WarpSize σ hσ
  refine ⟨⟨τ, fun i => by rw [e, hτ i]⟩, ?_, fun s hs k id => ?_⟩
  · rw [e]
    exact ofFn_perm_of_nat_perm WarpSize key σ hσ
  · have hx : id ^^^ s.mask ^^^ s.mask = id := by
      rw [Nat.xor_assoc, Nat.xor_self, Nat.xor_zero]
    rw [hx, schedule_dirs s (mem_executed_steps hs).1 id]
    cases s.dir id <;> rfl

theorem sort_key_conserves_keys_witness :
    4 ∈ [2, 4, 8, 16, 32, 64] ∧
    ∃ s : Equiv.Perm (Fin 4), ∀ i : Fin 4,
      sort_key 4 (lanes [2, 0, 1, 1] 0) (fun _ => fun a b => decide (a % 2 = b)) i =
        lanes [2, 0, 1, 1] 0 (s i) :=
  ⟨by decide, (sort_key_conserves_keys 4 (by decide) (fun a b => decide (a % 2 = b))
    (lanes [2, 0, 1, 1] 0)).1⟩

/-- C19: values never influence where keys go: for every width, comparator and
keys, and any two assignments of values, both key/value overloads leave in
every lane the same key for both assignments, the key that the key-only
`sort(key, less)` leaves there. -/
theorem keys_independent_of_values {K V : Type} (WarpSize : Nat) (key : Nat → K)
    (value value' : Nat → V) (compare_function : Nat → K → K → Bool)
    (fits fits' : Bool) (lane : Nat) :
    (sort_key_value fits WarpSize key value compare_function).1 lane =
      (sort_key_value fits' WarpSize key value' compare_function).1 lane ∧
    (sort_key_value fits WarpSize key value compare_function).1 lane =
      sort_key WarpSize key compare_function lane := by
  have h : ∀ (b : Bool) (w : Nat → V),
      (sort_key_value b WarpSize key w compare_function).1 =
        sort_key WarpSize key compare_function := by
    intro b w
    cases b
    · simp only [sort_key_value, Bool.false_eq_true, if_false, sort_large, sort_key]
      exact bitonic_sort_fst WarpSize compare_function key _
    · simp only [sort_key_value, if_true, sort_small, sort_key]
      exact bitonic_sort_fst WarpSize compare_function key w
  rw [h fits value, h fits' value']
  exact ⟨rfl, rfl⟩

/-! ## Rounds and compare-exchanges of one sort -/

theorem run_steps_schedule {K V : Type} (WarpSize : Nat) (cmp : Nat → K → K → Bool)
    (kv : (Nat → K) × (Nat → V)) :
    run_steps WarpSize cmp schedule kv = bitonic_sort WarpSize cmp kv :=
  rfl

theorem foldl_filter_of_noop {α β : Type} (f : α → β → α) (p : β → Bool) (l : List β)
    (h : ∀ s ∈ l, p s = false → ∀ x, f x s = x) :
    ∀ x, l.foldl f x = (l.filter p).foldl f x := by
  induction l with
  | nil => intro x; rfl
  | cons s l ih =>
    intro x
    have ih' := ih (fun s' hs' => h s' (List.mem_cons_of_mem _ hs'))
    cases hp : p s
    · rw [List.filter_cons_of_neg (by simp [hp]), List.foldl_cons,
        h s (List.mem_cons_self _ _) hp x]
      exact ih' x
    · rw [List.filter_cons_of_pos (by simp [hp]), List.foldl_cons, List.foldl_cons]
      exact ih' _

theorem swap_noop {K V : Type} {WarpSize warp : Nat} (h : ¬ WarpSize > warp) (k : Nat → K)
    (v : Nat → V) (mask : Nat) (dir : Nat → Bool) (cmp : Nat → K → K → Bool) :
    swap WarpSize warp k v mask dir cmp = (k, v) := by
  simp [swap, h]

theorem swap_key_rule {K : Type} {WarpSize warp : Nat} (h : WarpSize > warp) (k : Nat → K)
    (mask : Nat) (dir : Nat → Bool) (cmp : Nat → K → K → Bool) (id : Nat) :
    swap_key WarpSize warp k mask dir cmp id =
      if cmp id (if dir id then k id else k (id ^^^ mask))
          (if dir id then k (id ^^^ mask) else k id)
      then k (id ^^^ mask) else k id := by
  simp only [swap_key, h, if_true, warp_shuffle_xor]

theorem performs_round_eq (WarpSize : Nat) (hW : WarpSize ∈ [2, 4, 8, 16, 32, 64]) :
    ∀ s ∈ schedule, performs_round WarpSize s = decide (WarpSize > s.warp) := by
  simp only [List.mem_cons, List.mem_singleton, List.not_mem_nil, or_false] at hW
  rcases hW with rfl | rfl | rfl | rfl | rfl | rfl <;> decide

theorem performed_steps_eq (WarpSize : Nat) (hW : WarpSize ∈ [2, 4, 8, 16, 32, 64]) :
    performed_steps WarpSize = executed_steps WarpSize := by
  unfold performed_steps executed_steps
  exact List.filter_congr (performs_round_eq WarpSize hW)

/-- C7: for every width in {2,4,8,16,32,64} one sort performs
`log2 W * (log2 W + 1) / 2` synchronized rounds (1, 3, 6, 10, 15, 21): that many
`swap` calls of the schedule exchange registers, they are the calls with
`WarpSize > warp`, each of them is a compare-exchange of every lane with its
partner `id XOR mask`, every other call is a no-op of both overloads, and the
sort is those calls run in schedule order. -/
theorem sort_performs_rounds (WarpSize : Nat) (hW : WarpSize ∈ [2, 4, 8, 16, 32, 64]) :
    performed_rounds WarpSize = Nat.log 2 WarpSize * (Nat.log 2 WarpSize + 1) / 2 ∧
    (WarpSize, performed_rounds WarpSize) ∈
      [(2, 1), (4, 3), (8, 6), (16, 10), (32, 15), (64, 21)] ∧
    (∀ s ∈ schedule, performs_round WarpSize s = decide (WarpSize > s.warp)) ∧
    (∀ s ∈ schedule, performs_round WarpSize s = false →
      ∀ (K V : Type) (k : Nat → K) (v : Nat → V) (cmp : Nat → K → K → Bool),
        swap WarpSize s.warp k v s.mask
            (fun lane => s.dir (logical_lane_id WarpSize lane)) cmp = (k, v) ∧
        swap_key WarpSize s.warp k s.mask
            (fun lane => s.dir (logical_lane_id WarpSize lane)) cmp = k) ∧
    (∀ s ∈ performed_steps WarpSize,
      ∀ (K : Type) (k : Nat → K) (cmp : Nat → K → K → Bool) (id : Nat),
        swap_key WarpSize s.warp k s.mask
            (fun lane => s.dir (logical_lane_id WarpSize lane)) cmp id =
          if cmp id (if s.dir (logical_lane_id WarpSize id) then k id else k (id ^^^ s.mask))
              (if s.dir (logical_lane_id WarpSize id) then k (id ^^^ s.mask) else k id)
          then k (id ^^^ s.mask) else k id) ∧
    (∀ (K V : Type) (k : Nat → K) (v : Nat → V) (cmp : Nat → K → K → Bool),
      sort_key WarpSize k cmp = run_steps_key WarpSize cmp (performed_steps WarpSize) k ∧
      sort_small WarpSize k v cmp =
        run_steps WarpSize cmp (performed_steps WarpSize) (k, v)) := by
  have hnoop : ∀ s ∈ schedule, performs_round WarpSize s = false → ¬ WarpSize > s.warp := by
    intro s hs hp
    rw [performs_round_eq WarpSize hW s hs] at hp
    simpa using hp
  refine ⟨?_, ?_, performs_round_eq WarpSize hW, ?_, ?_, ?_⟩
  · rw [performed_rounds, performed_steps_eq WarpSize hW]
    exact (rounds_formula WarpSize hW).1
  · rw [performed_rounds, performed_steps_eq WarpSize hW]
    exact (rounds_formula WarpSize hW).2
  · intro s hs hp K V k v cmp
    exact ⟨swap_noop (hnoop s hs hp) _ _ _ _ _, swap_key_noop (hnoop s hs hp) _ _ _ _⟩
  · intro s hs K k cmp id
    rw [performed_steps_eq WarpSize hW] at hs
    exact swap_key_rule (mem_executed_steps hs).2 k s.mask _ cmp id
  · intro K V k v cmp
    refine ⟨?_, ?_⟩
    · unfold sort_key bitonic_sort_key run_steps_key performed_steps
      exact foldl_filter_of_noop
        (fun k s => swap_key WarpSize s.warp k s.mask
          (fun lane => s.dir (logical_lane_id WarpSize lane)) cmp)
        (performs_round WarpSize) schedule
        (fun s hs hp x => swap_key_noop (hnoop s hs hp) _ _ _ _) k
    · unfold sort_small bitonic_sort run_steps performed_steps
      exact foldl_filter_of_noop
        (fun kv s => swap WarpSize s.warp kv.1 kv.2 s.mask
          (fun lane => s.dir (logical_lane_id WarpSize lane)) cmp)
        (performs_round WarpSize) schedule
        (fun s hs hp x => swap_noop (hnoop s hs hp) _ _ _ _ _) (k, v)

theorem sort_performs_rounds_witness :
    8 ∈ [2, 4, 8, 16, 32, 64] ∧ performed_rounds 8 = 6 ∧
    (performed_rounds 8 = Nat.log 2 8 * (Nat.log 2 8 + 1) / 2) ∧
    (performed_steps 8).map (fun s => (s.warp, s.mask)) =
      [(2, 1), (4, 2), (4, 1), (4, 4), (2, 2), (0, 1)] :=
  ⟨by decide, by decide, (sort_performs_rounds 8 (by decide)).1, by decide⟩

end warp_sort_shuffle
